import Mathlib

/-!
Verification of `utils/io/content/contentreader.go` (jfrog-client-go).

Shallow embedding conventions:
* A `ContentReader` is modelled as a record of its Go fields.  The producer
  goroutine together with `dataChannel` is modelled, from the single-consumer
  linearisation, by the full record sequence the producer will push
  (`records`) plus a cursor `pos` (records already received); `started`
  models the consumed/fresh state of the `sync.Once` latch and
  `errorsQueue` models `utils.ErrorsQueue` (a FIFO of sunk errors).
* File contents are abstracted by an oracle `fileRecords : String → List α`
  giving the record list stored under the array key of each file.
* JSON round-trip conversion (`ConvertToStruct`) is modelled as the identity
  on the record type; conversion never fails in the model.
* Go string comparison (`<`, `>`) is byte-wise lexicographic on UTF-8, which
  agrees with the codepoint-lexicographic `String.lt` used here.
-/

namespace ContentReader

/-- Go `compareStrings(src, against, ascendingOrder)`:
`src > against` when ascending, `src < against` otherwise. -/
def compareStrings (src against : String) (ascendingOrder : Bool) : Bool :=
  if ascendingOrder then decide (against < src) else decide (src < against)

/-- Strict "comes before" order on keys in the requested direction. -/
def dirLT (asc : Bool) (a b : String) : Prop :=
  match asc with
  | true => a < b
  | false => b < a

/-- Non-strict "comes no later than" order on keys in the requested direction. -/
def dirLE (asc : Bool) (a b : String) : Prop :=
  match asc with
  | true => a ≤ b
  | false => b ≤ a

instance (asc : Bool) (a b : String) : Decidable (dirLT asc a b) := by
  unfold dirLT; cases asc <;> infer_instance

instance (asc : Bool) (a b : String) : Decidable (dirLE asc a b) := by
  unfold dirLE; cases asc <;> infer_instance

theorem compareStrings_iff {src against : String} {asc : Bool} :
    compareStrings src against asc = true ↔ dirLT asc against src := by
  cases asc <;> simp [compareStrings, dirLT]

theorem dirLT_irrefl (asc : Bool) (a : String) : ¬ dirLT asc a a := by
  cases asc <;> simp [dirLT]

theorem dirLT_trans {asc : Bool} {a b c : String} :
    dirLT asc a b → dirLT asc b c → dirLT asc a c := by
  cases asc
  · exact fun h₁ h₂ => lt_trans h₂ h₁
  · exact fun h₁ h₂ => lt_trans h₁ h₂

theorem dirLT_asymm {asc : Bool} {a b : String} :
    dirLT asc a b → ¬ dirLT asc b a := by
  intro h₁ h₂
  exact dirLT_irrefl asc a (dirLT_trans h₁ h₂)

/-- Linearity: two keys neither of which strictly precedes the other are equal. -/
theorem eq_of_not_dirLT {asc : Bool} {a b : String} :
    ¬ dirLT asc a b → ¬ dirLT asc b a → a = b := by
  cases asc <;> intro h₁ h₂
  · exact le_antisymm (not_lt.mp h₁) (not_lt.mp h₂)
  · exact le_antisymm (not_lt.mp h₂) (not_lt.mp h₁)

theorem dirLE_of_not_dirLT {asc : Bool} {a b : String} (h : ¬ dirLT asc b a) :
    dirLE asc a b := by
  cases asc
  · exact not_lt.mp h
  · exact not_lt.mp h

theorem not_dirLT_of_dirLE {asc : Bool} {a b : String} (h : dirLE asc a b) :
    ¬ dirLT asc b a := by
  cases asc
  · exact not_lt.mpr h
  · exact not_lt.mpr h

theorem dirLE_refl (asc : Bool) (a : String) : dirLE asc a a := by
  cases asc <;> exact le_refl a

theorem dirLE_trans {asc : Bool} {a b c : String} :
    dirLE asc a b → dirLE asc b c → dirLE asc a c := by
  cases asc
  · exact fun h₁ h₂ => le_trans h₂ h₁
  · exact fun h₁ h₂ => le_trans h₁ h₂

theorem dirLE_total (asc : Bool) (a b : String) : dirLE asc a b ∨ dirLE asc b a := by
  cases asc
  · exact (le_total b a).elim Or.inl Or.inr
  · exact le_total a b

theorem dirLT_of_dirLE_of_ne {asc : Bool} {a b : String}
    (h : dirLE asc a b) (hne : a ≠ b) : dirLT asc a b := by
  cases asc
  · exact lt_of_le_of_ne h (fun hc => hne hc.symm)
  · exact lt_of_le_of_ne h hne

/-- `¬ b < a` composed transitively (`a ≤ b ≤ c` in direction order). -/
theorem not_dirLT_trans {asc : Bool} {a b c : String}
    (h₁ : ¬ dirLT asc b a) (h₂ : ¬ dirLT asc c b) : ¬ dirLT asc c a :=
  not_dirLT_of_dirLE (dirLE_trans (dirLE_of_not_dirLT h₁) (dirLE_of_not_dirLT h₂))

/-- Errors of the reader layer.  `empty` models `errorutils.CheckErrorf("Empty")`,
`eof` models `io.EOF`, `notFound key` models `CheckErrorf(arrayKey + " not found")`,
`decodeFailure` a JSON decoding error, `removeFailed` a failed `os.Remove`. -/
inductive ReaderError where
  | empty : ReaderError
  | eof : ReaderError
  | notFound (key : String) : ReaderError
  | decodeFailure : ReaderError
  | removeFailed (path : String) : ReaderError
deriving DecidableEq, Repr

/-- The `ContentReader` struct (contentreader.go lines 25-37). -/
structure State (α : Type) where
  filesPaths : List String
  arrayKey : String
  /-- The full sequence the producer pushes through `dataChannel`
  (source files in order, array elements in file order). -/
  records : List α
  /-- Number of records already received from the channel. -/
  pos : Nat
  /-- Whether the `sync.Once` latch has fired (producer spawned). -/
  started : Bool
  length : Nat
  empty : Bool
  errorsQueue : List ReaderError
deriving Repr

/-- `NewMultiSourceContentReader(filePaths, arrayKey)`. -/
def newMultiSourceContentReader (fileRecords : String → List α)
    (filePaths : List String) (arrayKey : String) : State α :=
  { filesPaths := filePaths
    arrayKey := arrayKey
    records := (filePaths.map fileRecords).flatten
    pos := 0
    started := false
    length := 0
    empty := filePaths.isEmpty
    errorsQueue := [] }

/-- `NewContentReader(filePath, arrayKey)`: single source, empty iff the path is `""`. -/
def newContentReader (fileRecords : String → List α)
    (filePath : String) (arrayKey : String) : State α :=
  { newMultiSourceContentReader fileRecords [filePath] arrayKey with
    empty := filePath == "" }

/-- `NewEmptyContentReader(arrayKey)`. -/
def newEmptyContentReader (fileRecords : String → List α) (arrayKey : String) : State α :=
  newContentReader fileRecords "" arrayKey

/-- `IsEmpty()`. -/
def isEmpty (cr : State α) : Bool := cr.empty

/-- `GetFilesPaths()`. -/
def getFilesPaths (cr : State α) : List String := cr.filesPaths

/-- `GetError()`: first error of the queue, if any. -/
def getError (cr : State α) : Option ReaderError := cr.errorsQueue.head?

/-- The producer spawn performed by `once.Do` in `NextRecord`:
zeroes `length` and starts pushing records. -/
def spawn (cr : State α) : State α :=
  if cr.started then cr else { cr with started := true, length := 0 }

/-- `NextRecord(&out)` (contentreader.go lines 68-91), single-consumer view:
fails with `Empty` on an empty reader, spawns the producer once, then either
receives the next record (incrementing `length`) or reports `io.EOF` on a
closed channel.  Conversion is modelled as always succeeding. -/
def nextRecord (cr : State α) : Except ReaderError α × State α :=
  if cr.empty then (.error .empty, cr)
  else
    let cr₁ := spawn cr
    match cr₁.records[cr₁.pos]? with
    | some r => (.ok r, { cr₁ with pos := cr₁.pos + 1, length := cr₁.length + 1 })
    | none => (.error .eof, cr₁)

/-- `Reset()`: fresh channel, re-armed latch (contentreader.go lines 94-97). -/
def reset (cr : State α) : State α :=
  { cr with pos := 0, started := false }

/-- The drain loop `for item := ...; cr.NextRecord(item) == nil;` used by
`Length` — repeatedly calls `nextRecord` until it returns an error.
`fuel` bounds the iteration count (any `fuel > remaining records` is exact). -/
def drainLoop : Nat → State α → State α
  | 0, cr => cr
  | fuel + 1, cr =>
    match nextRecord cr with
    | (.ok _, cr') => drainLoop fuel cr'
    | (.error _, cr') => cr'

/-- A full `NextRecord` iteration: collect the yielded records until an error. -/
def collect : Nat → State α → List α × State α
  | 0, cr => ([], cr)
  | fuel + 1, cr =>
    match nextRecord cr with
    | (.ok r, cr') =>
      let (rest, cr'') := collect fuel cr'
      (r :: rest, cr'')
    | (.error _, cr') => ([], cr')

/-- `Length()` (contentreader.go lines 138-151). -/
def lengthOp (cr : State α) : Except ReaderError Nat × State α :=
  if cr.empty then (.ok 0, cr)
  else if cr.length = 0 then
    let cr₁ := drainLoop (cr.records.length + 1) cr
    let cr₂ := reset cr₁
    match getError cr₂ with
    | some e => (.error e, cr₂)
    | none => (.ok cr₂.length, cr₂)
  else (.ok cr.length, cr)

/-- The record sequence a reader yields to a full `NextRecord` iteration. -/
def readerSeq (cr : State α) : List α :=
  if cr.empty then [] else cr.records

theorem spawn_spawn (cr : State α) : spawn (spawn cr) = spawn cr := by
  unfold spawn
  cases h : cr.started <;> simp [h]

theorem nextRecord_spawn {cr : State α} (h : cr.empty = false) :
    nextRecord cr = nextRecord (spawn cr) := by
  unfold nextRecord
  have he : (spawn cr).empty = cr.empty := by
    unfold spawn; cases hs : cr.started <;> simp [hs]
  rw [spawn_spawn]
  simp [h, he]

theorem spawn_of_started {cr : State α} (h : cr.started = true) : spawn cr = cr := by
  simp [spawn, h]

theorem nextRecord_started_lt {cr : State α} (hemp : cr.empty = false)
    (hst : cr.started = true) (hlt : cr.pos < cr.records.length) :
    nextRecord cr =
      (.ok (cr.records[cr.pos]),
       { cr with pos := cr.pos + 1, length := cr.length + 1 }) := by
  unfold nextRecord
  rw [spawn_of_started hst]
  simp [hemp, List.getElem?_eq_getElem hlt]

theorem nextRecord_started_ge {cr : State α} (hemp : cr.empty = false)
    (hst : cr.started = true) (hge : cr.records.length ≤ cr.pos) :
    nextRecord cr = (.error .eof, cr) := by
  unfold nextRecord
  rw [spawn_of_started hst]
  simp [hemp, List.getElem?_eq_none hge]

/-- Drain from a running producer: advances `pos` to the end and adds the
number of remaining records to `length`. -/
theorem drainLoop_started : ∀ (fuel : Nat) (cr : State α), cr.empty = false →
    cr.started = true → cr.records.length ≤ cr.pos + fuel →
    cr.pos ≤ cr.records.length →
    drainLoop fuel cr =
      { cr with pos := cr.records.length,
                length := cr.length + (cr.records.length - cr.pos) }
  | 0, cr, _, _, hfuel, hpos => by
    have heq : cr.records.length = cr.pos := by omega
    simp [drainLoop, heq]
  | fuel + 1, cr, hemp, hst, hfuel, hpos => by
    by_cases hlt : cr.pos < cr.records.length
    · rw [drainLoop, nextRecord_started_lt hemp hst hlt]
      dsimp only
      rw [drainLoop_started fuel { cr with pos := cr.pos + 1, length := cr.length + 1 }
            hemp hst (by simp; omega) (by simp; omega)]
      have harith : cr.length + 1 + (cr.records.length - (cr.pos + 1)) =
          cr.length + (cr.records.length - cr.pos) := by omega
      simp [harith]
    · have hge : cr.records.length ≤ cr.pos := by omega
      rw [drainLoop, nextRecord_started_ge hemp hst hge]
      have heq : cr.records.length = cr.pos := by omega
      simp [heq]

/-- Collect from a running producer: yields exactly the remaining records. -/
theorem collect_started : ∀ (fuel : Nat) (cr : State α), cr.empty = false →
    cr.started = true → cr.records.length ≤ cr.pos + fuel →
    cr.pos ≤ cr.records.length →
    collect fuel cr =
      (cr.records.drop cr.pos,
       { cr with pos := cr.records.length,
                 length := cr.length + (cr.records.length - cr.pos) })
  | 0, cr, _, _, hfuel, hpos => by
    have heq : cr.records.length = cr.pos := by omega
    simp [collect, heq, List.drop_eq_nil_of_le (le_of_eq heq)]
  | fuel + 1, cr, hemp, hst, hfuel, hpos => by
    by_cases hlt : cr.pos < cr.records.length
    · rw [collect, nextRecord_started_lt hemp hst hlt]
      dsimp only
      rw [collect_started fuel { cr with pos := cr.pos + 1, length := cr.length + 1 }
            hemp hst (by simp; omega) (by simp; omega)]
      have harith : cr.length + 1 + (cr.records.length - (cr.pos + 1)) =
          cr.length + (cr.records.length - cr.pos) := by omega
      dsimp only
      rw [harith, List.drop_eq_getElem_cons hlt]
    · have hge : cr.records.length ≤ cr.pos := by omega
      rw [collect, nextRecord_started_ge hemp hst hge]
      have heq : cr.records.length = cr.pos := by omega
      simp [heq, List.drop_eq_nil_of_le (le_of_eq heq)]

theorem drainLoop_spawn {cr : State α} (fuel : Nat) (h : cr.empty = false) :
    drainLoop (fuel + 1) cr = drainLoop (fuel + 1) (spawn cr) := by
  rw [drainLoop, drainLoop, nextRecord_spawn h]

theorem collect_spawn {cr : State α} (fuel : Nat) (h : cr.empty = false) :
    collect (fuel + 1) cr = collect (fuel + 1) (spawn cr) := by
  rw [collect, collect, nextRecord_spawn h]

/-- A reader state that is positioned at the start with a fresh latch and a
clean error sink (as after construction or after `Reset`). -/
def Ready (cr : State α) : Prop :=
  cr.pos = 0 ∧ cr.started = false ∧ cr.errorsQueue = [] ∧ cr.empty = false

theorem collect_ready {cr : State α} (h : Ready cr) :
    (collect (cr.records.length + 1) cr).1 = cr.records := by
  obtain ⟨hpos, hst, herr, hemp⟩ := h
  rw [collect_spawn _ hemp]
  have hspawn : spawn cr = { cr with started := true, length := 0 } := by
    simp [spawn, hst]
  rw [hspawn]
  rw [collect_started (cr.records.length + 1) { cr with started := true, length := 0 }
        hemp rfl (by dsimp only; omega) (by dsimp only; omega)]
  dsimp only
  rw [hpos]
  exact List.drop_zero _

theorem lengthOp_ready {cr : State α} (h : Ready cr)
    (hlen : cr.length = 0 ∨ cr.length = cr.records.length) :
    lengthOp cr = (.ok cr.records.length, { cr with length := cr.records.length }) := by
  obtain ⟨hpos, hst, herr, hemp⟩ := h
  unfold lengthOp
  rw [if_neg (by simp [hemp])]
  by_cases h0 : cr.length = 0
  · rw [if_pos h0]
    rw [drainLoop_spawn _ hemp]
    have hspawn : spawn cr = { cr with started := true, length := 0 } := by
      simp [spawn, hst]
    rw [hspawn]
    have hd := drainLoop_started (cr.records.length + 1)
      { cr with started := true, length := 0 }
      hemp rfl (by dsimp only; omega) (by dsimp only; omega)
    dsimp only at hd
    rw [hd]
    dsimp only [reset, getError]
    rw [herr]
    dsimp only [List.head?]
    congr 1
    · congr 1
      omega
    · congr 1 <;> first | rfl | omega | exact hpos.symm | exact hst.symm
  · rw [if_neg h0]
    have hcr : cr.length = cr.records.length := hlen.resolve_left h0
    have heta : ({ cr with length := cr.records.length } : State α) = cr := by
      rw [← hcr]
    rw [heta, hcr]

/-- Ready-state invariant is preserved by `lengthOp`, which caches the count. -/
theorem lengthOp_state_ready {cr : State α} (h : Ready cr)
    (hlen : cr.length = 0 ∨ cr.length = cr.records.length) :
    Ready (lengthOp cr).2 ∧ (lengthOp cr).2.records = cr.records ∧
      (lengthOp cr).2.length = cr.records.length := by
  rw [lengthOp_ready h hlen]
  obtain ⟨hpos, hst, herr, hemp⟩ := h
  exact ⟨⟨hpos, hst, herr, hemp⟩, rfl, rfl⟩

/-- Iterated calls of `Length()`. -/
def lengthIter : Nat → State α → State α
  | 0, cr => cr
  | n + 1, cr => (lengthOp (lengthIter n cr)).2

theorem lengthIter_ready {cr : State α} (h : Ready cr) (hlen : cr.length = 0) :
    ∀ n, Ready (lengthIter n cr) ∧ (lengthIter n cr).records = cr.records ∧
      ((lengthIter n cr).length = 0 ∨ (lengthIter n cr).length = (lengthIter n cr).records.length)
  | 0 => ⟨h, rfl, Or.inl hlen⟩
  | n + 1 => by
    obtain ⟨hr, hrec, hl⟩ := lengthIter_ready h hlen n
    obtain ⟨h1, h2, h3⟩ := lengthOp_state_ready hr hl
    refine ⟨h1, h2.trans hrec, Or.inr ?_⟩
    show (lengthOp (lengthIter n cr)).2.length = (lengthOp (lengthIter n cr)).2.records.length
    rw [h3, h2]

/-- C5.  For every non-empty reader over a fixed set of source files, every one
of any number of `Length()` calls returns the full record count, and after any
number of such calls a full `NextRecord` iteration still yields the entire
record sequence (the caller observes no consumption). -/
theorem c5_length_idempotent_and_repositions (α : Type) (fileRecords : String → List α)
    (paths : List String) (arrayKey : String) (hne : paths ≠ []) (n : Nat) :
    (lengthOp (lengthIter n (newMultiSourceContentReader fileRecords paths arrayKey))).1 =
      .ok (newMultiSourceContentReader fileRecords paths arrayKey).records.length
    ∧ (collect ((newMultiSourceContentReader fileRecords paths arrayKey).records.length + 1)
        (lengthIter n (newMultiSourceContentReader fileRecords paths arrayKey))).1 =
      (newMultiSourceContentReader fileRecords paths arrayKey).records := by
  set cr₀ := newMultiSourceContentReader fileRecords paths arrayKey with hcr₀
  have hready : Ready cr₀ := by
    refine ⟨rfl, rfl, rfl, ?_⟩
    rw [hcr₀]
    cases paths with
    | nil => exact absurd rfl hne
    | cons p ps => rfl
  obtain ⟨hr, hrec, hl⟩ := lengthIter_ready hready rfl n
  constructor
  · rw [lengthOp_ready hr hl, hrec]
  · rw [← hrec]
    exact collect_ready hr

/-- Witness for C5 at a concrete reader with two records and two `Length` calls. -/
theorem c5_length_idempotent_and_repositions_witness :
    (["f"] : List String) ≠ []
    ∧ (lengthOp (lengthIter 2 (newMultiSourceContentReader (fun _ => [10, 20]) ["f"] "results"))).1 =
        .ok (newMultiSourceContentReader (fun (_ : String) => [10, 20]) ["f"] "results").records.length :=
  ⟨by decide,
   (c5_length_idempotent_and_repositions Nat (fun _ => [10, 20]) ["f"] "results"
     (by decide) 2).1⟩

/-- C8.  On a reader whose emptiness flag is set — as produced by
`NewContentReader("")`, `NewMultiSourceContentReader([])` or
`NewEmptyContentReader` — `NextRecord` returns the `Empty` error immediately
with the state untouched (no producer spawned, nothing sunk), and `GetError`
on a so-constructed reader yields nothing. -/
theorem c8_empty_reader_next_record (α : Type) (fileRecords : String → List α)
    (arrayKey : String) (cr : State α) (h : cr.empty = true) :
    (newContentReader fileRecords "" arrayKey).empty = true
    ∧ (newMultiSourceContentReader fileRecords [] arrayKey).empty = true
    ∧ (newEmptyContentReader fileRecords arrayKey).empty = true
    ∧ nextRecord cr = (.error .empty, cr)
    ∧ getError (nextRecord cr).2 = getError cr
    ∧ getError (newEmptyContentReader fileRecords arrayKey) = none := by
  refine ⟨rfl, rfl, rfl, ?_, ?_, rfl⟩ <;> simp [nextRecord, h]

theorem c8_empty_reader_next_record_witness :
    (newEmptyContentReader (fun (_ : String) => ([] : List Nat)) "results").empty = true
    ∧ nextRecord (newEmptyContentReader (fun (_ : String) => ([] : List Nat)) "results") =
        (.error .empty, newEmptyContentReader (fun _ => []) "results") :=
  ⟨rfl,
   (c8_empty_reader_next_record Nat (fun _ => []) "results"
     (newEmptyContentReader (fun _ => []) "results") rfl).2.2.2.1⟩

/-! ### Close and file removal (contentreader.go lines 99-131)

The disk is modelled as the set (duplicate-free by intent) of existing file
paths, represented as a `List String`; `os.Remove` deletes the path from it. -/

/-- `removeFileWithRetry(filePath)`.  The `os.Stat` guard tolerates a missing
file.  The retry executor is an external `gofrog` dependency not under `src/`;
its loop is modelled from the spec: up to 5 removal attempts, succeeding as
soon as one attempt succeeds (`attemptOk i` tells whether attempt `i` works).
Returns the new disk state on success. -/
def removeFileWithRetry (attemptOk : Nat → Bool) (fs : List String)
    (filePath : String) : Except ReaderError (List String) :=
  if filePath ∈ fs then
    if (List.range 5).any attemptOk then
      .ok (fs.filter (fun q => q ≠ filePath))
    else .error (.removeFailed filePath)
  else .ok fs

/-- The loop of `Close()`: remove each owned path in order, skipping `""`,
aborting on the first failure. -/
def closeLoop (attemptOk : String → Nat → Bool) :
    List String → List String → Except ReaderError (List String)
  | [], fs => .ok fs
  | p :: rest, fs =>
    if p = "" then closeLoop attemptOk rest fs
    else
      match removeFileWithRetry (attemptOk p) fs p with
      | .ok fs' => closeLoop attemptOk rest fs'
      | .error e => .error e

/-- `Close()`: on success the path list is cleared. -/
def closeReader (attemptOk : String → Nat → Bool) (fs : List String)
    (cr : State α) : Except ReaderError (List String × State α) :=
  (closeLoop attemptOk cr.filesPaths fs).map
    (fun fs' => (fs', { cr with filesPaths := [] }))

theorem removeFileWithRetry_subset {attemptOk : Nat → Bool} {fs fs' : List String}
    {p q : String} (h : removeFileWithRetry attemptOk fs p = .ok fs')
    (hq : q ∈ fs') : q ∈ fs := by
  unfold removeFileWithRetry at h
  by_cases hmem : p ∈ fs
  · rw [if_pos hmem] at h
    by_cases hok : (List.range 5).any attemptOk
    · rw [if_pos hok] at h
      cases h
      exact List.mem_of_mem_filter hq
    · rw [if_neg hok] at h
      cases h
  · rw [if_neg hmem] at h
    cases h
    exact hq

theorem removeFileWithRetry_removed {attemptOk : Nat → Bool} {fs fs' : List String}
    {p : String} (h : removeFileWithRetry attemptOk fs p = .ok fs') : p ∉ fs' := by
  unfold removeFileWithRetry at h
  by_cases hmem : p ∈ fs
  · rw [if_pos hmem] at h
    by_cases hok : (List.range 5).any attemptOk
    · rw [if_pos hok] at h
      cases h
      intro hin
      have := List.of_mem_filter hin
      simp at this
    · rw [if_neg hok] at h
      cases h
  · rw [if_neg hmem] at h
    cases h
    exact hmem

theorem closeLoop_subset {attemptOk : String → Nat → Bool} :
    ∀ (paths : List String) (fs fs' : List String),
    closeLoop attemptOk paths fs = .ok fs' → ∀ q ∈ fs', q ∈ fs
  | [], fs, fs', h, q, hq => by
    cases h
    exact hq
  | p :: rest, fs, fs', h, q, hq => by
    unfold closeLoop at h
    by_cases hp : p = ""
    · rw [if_pos hp] at h
      exact closeLoop_subset rest fs fs' h q hq
    · rw [if_neg hp] at h
      cases hrm : removeFileWithRetry (attemptOk p) fs p with
      | ok fs₁ =>
        rw [hrm] at h
        dsimp only at h
        exact removeFileWithRetry_subset hrm (closeLoop_subset rest fs₁ fs' h q hq)
      | error e =>
        rw [hrm] at h
        cases h

theorem closeLoop_unlinks {attemptOk : String → Nat → Bool} :
    ∀ (paths : List String) (fs fs' : List String),
    closeLoop attemptOk paths fs = .ok fs' →
    ∀ p ∈ paths, p ≠ "" → p ∉ fs'
  | [], fs, fs', h, p, hp, _ => by cases hp
  | q :: rest, fs, fs', h, p, hp, hne => by
    unfold closeLoop at h
    by_cases hq : q = ""
    · rw [if_pos hq] at h
      cases List.mem_cons.mp hp with
      | inl heq => exact absurd (heq.trans hq) hne
      | inr hmem => exact closeLoop_unlinks rest fs fs' h p hmem hne
    · rw [if_neg hq] at h
      cases hrm : removeFileWithRetry (attemptOk q) fs q with
      | ok fs₁ =>
        rw [hrm] at h
        dsimp only at h
        cases List.mem_cons.mp hp with
        | inl heq =>
          subst heq
          intro hc
          exact removeFileWithRetry_removed hrm (closeLoop_subset rest fs₁ fs' h p hc)
        | inr hmem => exact closeLoop_unlinks rest fs₁ fs' h p hmem hne
      | error e =>
        rw [hrm] at h
        cases h

/-- C7.  If `Close()` returns successfully, every owned file path has been
unlinked from disk (removal retried up to 5 times, a missing file counting as
success), and `GetFilesPaths()` afterwards returns the empty list. -/
theorem c7_close_cleans_up (α : Type) (attemptOk : String → Nat → Bool)
    (fs : List String) (cr : State α) (fs' : List String) (cr' : State α)
    (h : closeReader attemptOk fs cr = .ok (fs', cr')) :
    (∀ p ∈ cr.filesPaths, p ≠ "" → p ∉ fs') ∧ getFilesPaths cr' = [] := by
  unfold closeReader at h
  cases hcl : closeLoop attemptOk cr.filesPaths fs with
  | ok fs₁ =>
    rw [hcl] at h
    dsimp only [Except.map] at h
    cases h
    exact ⟨fun p hp hne => closeLoop_unlinks cr.filesPaths fs _ hcl p hp hne, rfl⟩
  | error e =>
    rw [hcl] at h
    dsimp only [Except.map] at h
    cases h

theorem c7_close_cleans_up_witness :
    closeReader (fun _ _ => true) ["a", "b"]
        (newContentReader (fun (_ : String) => ([] : List Nat)) "a" "results") =
      .ok (["b"], { newContentReader (fun (_ : String) => ([] : List Nat)) "a" "results"
                      with filesPaths := [] })
    ∧ ("a" ∉ (["b"] : List String)) := by
  refine ⟨rfl, ?_⟩
  have := c7_close_cleans_up Nat (fun _ _ => true) ["a", "b"]
    (newContentReader (fun (_ : String) => ([] : List Nat)) "a" "results")
    ["b"] ({ newContentReader (fun (_ : String) => ([] : List Nat)) "a" "results"
              with filesPaths := [] }) rfl
  exact this.1 "a" (by simp [newContentReader, newMultiSourceContentReader])
    (by decide)

/-! ### MergeReaders (contentreader.go lines 223-241) -/

/-- The temp-file path returned by `NewContentWriter` — an opaque
implementation-chosen non-empty name. -/
def tempFilePath : String := "tmp-writer-output"

/-- Drain each input reader in order via `NextRecord`, writing every drained
record; abort with the first per-reader sunk error. -/
def drainReaders : List (State α) → List α → Except ReaderError (List α)
  | [], acc => .ok acc
  | cr :: rest, acc =>
    match getError (collect (cr.records.length + 1) cr).2 with
    | some e => .error e
    | none => drainReaders rest (acc ++ (collect (cr.records.length + 1) cr).1)

/-- `MergeReaders(arr, arrayKey)`: writes all drained records to a fresh
container file and returns a new reader over it. -/
def mergeReaders (readers : List (State α)) (arrayKey : String) :
    Except ReaderError (State α) :=
  (drainReaders readers []).map
    (fun written => newContentReader (fun _ => written) tempFilePath arrayKey)

theorem collect_empty {cr : State α} (fuel : Nat) (h : cr.empty = true) :
    collect (fuel + 1) cr = ([], cr) := by
  rw [collect]
  unfold nextRecord
  rw [h]
  simp

theorem collect_errorsQueue : ∀ (fuel : Nat) (cr : State α),
    (collect fuel cr).2.errorsQueue = cr.errorsQueue
  | 0, cr => rfl
  | fuel + 1, cr => by
    rw [collect]
    unfold nextRecord
    by_cases hemp : cr.empty = true
    · rw [if_pos hemp]
    · rw [if_neg hemp]
      cases hs : cr.started
      · rw [show spawn cr = { cr with started := true, length := 0 } from by
          simp [spawn, hs]]
        dsimp only
        cases hget : cr.records[cr.pos]? with
        | some r =>
          dsimp only
          exact collect_errorsQueue fuel _
        | none =>
          rfl
      · rw [spawn_of_started hs]
        dsimp only
        cases hget : cr.records[cr.pos]? with
        | some r =>
          dsimp only
          exact collect_errorsQueue fuel _
        | none =>
          rfl

theorem getError_collect {cr : State α} (fuel : Nat) :
    getError (collect fuel cr).2 = getError cr := by
  unfold getError
  rw [collect_errorsQueue]

theorem collect_fresh {cr : State α} (hpos : cr.pos = 0) (hst : cr.started = false)
    (hemp : cr.empty = false) :
    (collect (cr.records.length + 1) cr).1 = cr.records := by
  rw [collect_spawn _ hemp]
  have hspawn : spawn cr = { cr with started := true, length := 0 } := by
    simp [spawn, hst]
  rw [hspawn]
  rw [collect_started (cr.records.length + 1) { cr with started := true, length := 0 }
        hemp rfl (by dsimp only; omega) (by dsimp only; omega)]
  dsimp only
  rw [hpos]
  exact List.drop_zero _

theorem drainReaders_fresh :
    ∀ (readers : List (State α)) (acc : List α),
    (∀ cr ∈ readers, cr.pos = 0 ∧ cr.started = false ∧ cr.errorsQueue = []) →
    drainReaders readers acc = .ok (acc ++ (readers.map readerSeq).flatten)
  | [], acc, _ => by simp [drainReaders]
  | cr :: rest, acc, h => by
    obtain ⟨hpos, hst, herr⟩ := h cr (List.mem_cons_self ..)
    unfold drainReaders
    have hge : getError (collect (cr.records.length + 1) cr).2 = none := by
      rw [getError_collect]
      unfold getError
      rw [herr]
      rfl
    rw [hge]
    rw [drainReaders_fresh rest _ (fun c hc => h c (List.mem_cons_of_mem _ hc))]
    by_cases hemp : cr.empty
    · rw [collect_empty _ hemp]
      simp [readerSeq, hemp]
    · have hemp' : cr.empty = false := by
        cases hc : cr.empty
        · rfl
        · exact absurd hc hemp
      rw [collect_fresh hpos hst hemp']
      simp [readerSeq, hemp']

/-- C4.  `MergeReaders` drains each (unconsumed) input reader in the given
order and returns a reader whose record sequence is exactly the concatenation
of the inputs' record sequences. -/
theorem c4_merge_readers_concatenates (α : Type) (readers : List (State α))
    (arrayKey : String)
    (h : ∀ cr ∈ readers, cr.pos = 0 ∧ cr.started = false ∧ cr.errorsQueue = []) :
    ∃ out, mergeReaders readers arrayKey = .ok out
      ∧ readerSeq out = (readers.map readerSeq).flatten := by
  refine ⟨newContentReader (fun _ => (readers.map readerSeq).flatten)
    tempFilePath arrayKey, ?_, ?_⟩
  · unfold mergeReaders
    rw [drainReaders_fresh readers [] h]
    rfl
  · simp [readerSeq, newContentReader, newMultiSourceContentReader, tempFilePath]

/-- Witness for C4: readers over one and two records yield the three records
in the given order. -/
theorem c4_merge_readers_concatenates_witness :
    ∃ out, mergeReaders [newContentReader (fun _ => [1]) "f1" "items",
        newContentReader (fun _ => [2, 3]) "f2" "items"] "items" = .ok out
      ∧ readerSeq out =
          ([newContentReader (fun _ => [1]) "f1" "items",
            newContentReader (fun _ => [2, 3]) "f2" "items"].map readerSeq).flatten :=
  c4_merge_readers_concatenates Nat _ "items"
    (by intro cr hcr
        simp [newContentReader, newMultiSourceContentReader] at hcr
        rcases hcr with h | h <;> subst h <;>
          exact ⟨rfl, rfl, rfl⟩)

/-! ### The streaming JSON token decoder (contentreader.go lines 161-221)

`encoding/json.Decoder` semantics used by the source:
* `Token()` steps through every JSON token, including `[`, `]`, `{`, `}`;
  at the clean end of the input stream it returns `io.EOF`.
* `More()` peeks the next non-whitespace byte and reports `true` iff the
  stream has not ended and that byte is neither `]` nor `}` — so at the token
  level: there is a next token and it is not a closing delimiter.
A file's content is modelled by its JSON token list. -/

inductive JToken where
  | objStart : JToken
  | objEnd : JToken
  | arrStart : JToken
  | arrEnd : JToken
  | str (s : String) : JToken
  | num (n : Int) : JToken
  | boolean (b : Bool) : JToken
  | null : JToken
deriving DecidableEq, Repr

/-- `dec.More()` at the token level. -/
def decMore : List JToken → Bool
  | [] => false
  | t :: _ => !(t == .objEnd || t == .arrEnd)

/-- `findDecoderTargetPosition(dec, target, isArray)` (lines 205-221):
`for dec.More() { t := dec.Token(); if t == target { if isArray { skip one
token }; return } }; return nil`.  The result is the pair
(returned error, remaining token stream).  A `some .eof` comes only from the
skip-`[` call hitting the end of the stream; the loop itself exits with `nil`
as soon as `More()` is false. -/
def findDecoderTargetPosition (target : String) (isArray : Bool) :
    List JToken → Option ReaderError × List JToken
  | [] => (none, [])
  | t :: rest =>
    if t = .objEnd ∨ t = .arrEnd then (none, t :: rest)
    else if t = .str target then
      if isArray then
        match rest with
        | [] => (some .eof, [])
        | _ :: rest' => (none, rest')
      else (none, rest)
    else findDecoderTargetPosition target isArray rest

/-- JSON values, as decoded by `dec.Decode` into a generic value. -/
inductive JVal where
  | vNull : JVal
  | vBool (b : Bool) : JVal
  | vNum (n : Int) : JVal
  | vStr (s : String) : JVal
  | vArr (elems : List JVal) : JVal
  | vObj (fields : List (String × JVal)) : JVal

mutual

/-- Parse one JSON value from the token stream (`dec.Decode`). -/
def parseVal : Nat → List JToken → Option (JVal × List JToken)
  | 0, _ => none
  | _ + 1, [] => none
  | _ + 1, .null :: r => some (.vNull, r)
  | _ + 1, .boolean b :: r => some (.vBool b, r)
  | _ + 1, .num n :: r => some (.vNum n, r)
  | _ + 1, .str s :: r => some (.vStr s, r)
  | fuel + 1, .arrStart :: r => parseArrElems fuel r []
  | fuel + 1, .objStart :: r => parseObjFields fuel r []
  | _ + 1, .objEnd :: _ => none
  | _ + 1, .arrEnd :: _ => none

def parseArrElems : Nat → List JToken → List JVal → Option (JVal × List JToken)
  | 0, _, _ => none
  | _ + 1, .arrEnd :: r, acc => some (.vArr acc.reverse, r)
  | fuel + 1, ts, acc =>
    match parseVal fuel ts with
    | some (v, r) => parseArrElems fuel r (v :: acc)
    | none => none

def parseObjFields : Nat → List JToken → List (String × JVal) →
    Option (JVal × List JToken)
  | 0, _, _ => none
  | _ + 1, .objEnd :: r, acc => some (.vObj acc.reverse, r)
  | fuel + 1, .str k :: ts, acc =>
    match parseVal fuel ts with
    | some (v, r) => parseObjFields fuel r ((k, v) :: acc)
    | none => none
  | _ + 1, _, _ => none

end

/-- The element loop of `readSingleFile`: `for dec.More() { dec.Decode(&item);
push }`.  A decode failure (either unparsable input or an element that is not
an object, since the target is `map[string]interface{}`) is sunk and the file
abandoned. -/
def decodeLoop : Nat → List JToken → List JVal × List ReaderError
  | 0, _ => ([], [])
  | fuel + 1, ts =>
    if decMore ts then
      match parseVal ts.length ts with
      | some (.vObj fields, r) =>
        let (vs, es) := decodeLoop fuel r
        (.vObj fields :: vs, es)
      | some (_, _) => ([], [.decodeFailure])
      | none => ([], [.decodeFailure])
    else ([], [])

/-- `readSingleFile` (lines 161-197) on an opened file, as the pair
(records pushed to the channel, errors sunk into the queue). -/
def readSingleFile (ts : List JToken) (arrayKey : String) :
    List JVal × List ReaderError :=
  match findDecoderTargetPosition arrayKey true ts with
  | (some .eof, _) => ([], [.notFound arrayKey])
  | (some e, _) => ([], [e])
  | (none, rest) => decodeLoop (rest.length + 1) rest

/-- Token stream of the file `{"other":[{"x":1}]}` (spec scenario S2). -/
def s2Tokens : List JToken :=
  [.objStart, .str "other", .arrStart, .objStart, .str "x", .num 1,
   .objEnd, .arrEnd, .objEnd]

/-- C2.  Contrary to the claim, a source file lacking the target array key
sinks no error at all: on `{"other":[{"x":1}]}` with array key `"results"`
the positioning loop stops with a `nil` error at the first closing delimiter
(`More()` is false there), `readSingleFile` decodes zero records, and the
error sink stays empty — the `"results not found"` branch requires `io.EOF`,
which `findDecoderTargetPosition` cannot produce from its loop. -/
theorem c2_missing_key_sinks_no_error :
    readSingleFile s2Tokens "results" = ([], [])
    ∧ (readSingleFile s2Tokens "results").2 ≠ [.notFound "results"] := by
  refine ⟨rfl, by decide⟩

/-- Token stream of `{"a":"results","b":[2],"results":[1]}`: the target name
occurs first as a *value* (of key `"a"`), then as a real key. -/
def c6Tokens : List JToken :=
  [.objStart, .str "a", .str "results", .str "b", .arrStart, .num 2,
   .arrEnd, .str "results", .arrStart, .num 1, .arrEnd, .objEnd]

/-- C6 counterexample.  The decoder matches the *value* occurrence of
`"results"` (the claim says a value occurrence must not cause success): it
returns success positioned after the following token — inside the value of
`"b"` — instead of failing past it or reaching the real `"results"` key,
whose array contents `[.num 1, .arrEnd, .objEnd]` it never reaches. -/
theorem c6_value_position_match_counterexample :
    findDecoderTargetPosition "results" true c6Tokens =
      (none, [.arrStart, .num 2, .arrEnd, .str "results", .arrStart, .num 1,
              .arrEnd, .objEnd])
    ∧ ([.arrStart, .num 2, .arrEnd, .str "results", .arrStart, .num 1,
        .arrEnd, .objEnd] : List JToken) ≠ [.num 1, .arrEnd, .objEnd] := by
  refine ⟨by decide, by decide⟩

/-- C6 (amended).  The positioning decoder advances past tokens until the
*first* token equal to the target string — whether it stands in key or in
value position — consumes one additional token, and returns success
positioned after it; it only scans while `More()` holds, i.e. while no
closing delimiter is next. -/
theorem c6_first_match_any_position (target : String) (t : JToken)
    (ts₁ ts₂ : List JToken)
    (h : ∀ u ∈ ts₁, u ≠ .str target ∧ u ≠ .objEnd ∧ u ≠ .arrEnd) :
    findDecoderTargetPosition target true (ts₁ ++ .str target :: t :: ts₂) =
      (none, ts₂) := by
  induction ts₁ with
  | nil =>
    simp [findDecoderTargetPosition]
  | cons u ts₁ ih =>
    obtain ⟨hne, hobj, harr⟩ := h u (List.mem_cons_self ..)
    simp only [List.cons_append, findDecoderTargetPosition]
    rw [if_neg (by simp [hobj, harr]), if_neg hne]
    exact ih (fun v hv => h v (List.mem_cons_of_mem _ hv))

/-- Witness for the amended C6 at a concrete stream with a value-position
match. -/
theorem c6_first_match_any_position_witness :
    (∀ u ∈ ([.objStart, .str "a"] : List JToken),
        u ≠ .str "results" ∧ u ≠ .objEnd ∧ u ≠ .arrEnd)
    ∧ findDecoderTargetPosition "results" true
        ([.objStart, .str "a"] ++ .str "results" :: .str "b" ::
          [.arrStart, .num 2, .arrEnd]) =
      (none, [.arrStart, .num 2, .arrEnd]) :=
  ⟨by decide,
   c6_first_match_any_position "results" (.str "b") [.objStart, .str "a"]
     [.arrStart, .num 2, .arrEnd] (by decide)⟩

/-- C9.  `Reset()` only re-arms the latch and replaces the channel: the file
path list, array key, cached length, record source and error sink are
unchanged, so `GetError` returns the same errors after a `Reset`. -/
theorem c9_reset_frame (α : Type) (cr : State α) :
    (reset cr).filesPaths = cr.filesPaths
    ∧ (reset cr).arrayKey = cr.arrayKey
    ∧ (reset cr).length = cr.length
    ∧ (reset cr).errorsQueue = cr.errorsQueue
    ∧ (reset cr).records = cr.records
    ∧ (reset cr).empty = cr.empty
    ∧ getError (reset cr) = getError cr
    ∧ (reset cr).pos = 0
    ∧ (reset cr).started = false :=
  ⟨rfl, rfl, rfl, rfl, rfl, rfl, rfl, rfl, rfl⟩

/-! ### External sorter (contentreader.go lines 243-479)

Input readers are represented by their record sequences (a fresh reader
drained by `NextRecord` yields exactly its `records`, see `collect_fresh`).
The generic k-way merge below is shared by
`mergeSortedReadersByCalculatedKey` (with tie-dropping, `dedup = true`) and
`MergeSortedReaders` (no tie-dropping, `dedup = false`); the two Go
functions have the same loop shape and differ in exactly those points. -/

/-- Go `SortRecord`: envelope `{key, record}` used by the calculated-key path. -/
structure SortRecord (α : Type) where
  key : String
  record : α

/-- `SortAndSaveBufferToFile`: write the buffered envelopes in key order
(ascending `sort.Strings` or its reverse).  Go sorts the list of distinct keys
and emits `keysToContentItems[k]` for each; as every buffer holds one envelope
per key this equals sorting the envelopes by key. -/
def sortAndSaveBuffer (asc : Bool) (buf : List (SortRecord α)) : List (SortRecord α) :=
  List.insertionSort (fun a b => dirLE asc a.key b.key) buf

/-- State of the split loop: the current buffer (`keysToContentItems` +
`allKeys`, in insertion order — keys are distinct within a buffer) and the
finished sorted runs. -/
structure SplitState (α : Type) where
  buffer : List (SortRecord α)
  runs : List (List (SortRecord α))

/-- One iteration of the split loop of
`splitReaderToSortedBufferSizeReadersByCalculatedKey` (lines 306-326):
skip the record if its key is already buffered, otherwise append the
envelope; flush a full buffer (`len(allKeys) == B`) as a sorted run. -/
def splitStep (B : Nat) (keyFn : α → String) (asc : Bool)
    (st : SplitState α) (r : α) : SplitState α :=
  let k := keyFn r
  if k ∈ st.buffer.map SortRecord.key then st
  else
    let buf := st.buffer ++ [⟨k, r⟩]
    if buf.length = B then
      { buffer := [], runs := st.runs ++ [sortAndSaveBuffer asc buf] }
    else { st with buffer := buf }

/-- `splitReaderToSortedBufferSizeReadersByCalculatedKey` (lines 300-340):
the sorted runs produced from the input, the final partial buffer flushed. -/
def splitChunks (B : Nat) (keyFn : α → String) (asc : Bool)
    (input : List α) : List (List (SortRecord α)) :=
  let st := input.foldl (splitStep B keyFn asc) ⟨[], []⟩
  st.runs ++ (if st.buffer.isEmpty then [] else [sortAndSaveBuffer asc st.buffer])

/-- A merge slot: the pulled head `currentContentItem[i]` plus the records
still inside run `i` (`sortedFilesClone[i]`; an exhausted run is `(none, [])`). -/
abbrev Slot (τ : Type) := Option τ × List τ

/-- The records remaining in a slot, head first. -/
def slotContents (s : Slot τ) : List τ := s.1.toList ++ s.2

/-- The head-pull `if currentContentItem[i] == nil { NextRecord ... }` at the
top of the merge loop body, hoisted out of the scan: fill an empty head from
the run, leave everything else alone. -/
def refillSlot : Slot τ → Slot τ
  | (some x, r) => (some x, r)
  | (none, []) => (none, [])
  | (none, x :: r) => (some x, r)

/-- The candidate-selection scan `for i := 0; i < len(sortedFilesClone); i++`
(lines 361-385 / 420-440): walk the slots left to right carrying the current
candidate (record and absolute slot index).  With `dedup` on, a head whose
key equals the current candidate's key is nulled (the duplicate is dropped);
a head that `compareStrings` ranks strictly before the candidate replaces it. -/
def scanAux (key : τ → String) (dedup asc : Bool) :
    Option (τ × Nat) → Nat → List (Slot τ) → List (Slot τ) × Option (τ × Nat)
  | cand, _, [] => ([], cand)
  | cand, i, (h, r) :: rest =>
    match cand, h with
    | some (c, j), some x =>
      if dedup ∧ key x = key c then
        let res := scanAux key dedup asc (some (c, j)) (i + 1) rest
        ((none, r) :: res.1, res.2)
      else if compareStrings (key c) (key x) asc then
        let res := scanAux key dedup asc (some (x, i)) (i + 1) rest
        ((some x, r) :: res.1, res.2)
      else
        let res := scanAux key dedup asc (some (c, j)) (i + 1) rest
        ((some x, r) :: res.1, res.2)
    | none, some x =>
      let res := scanAux key dedup asc (some (x, i)) (i + 1) rest
      ((some x, r) :: res.1, res.2)
    | _, none =>
      let res := scanAux key dedup asc cand (i + 1) rest
      ((none, r) :: res.1, res.2)

/-- `currentContentItem[smallestIndex] = nil` after writing the candidate. -/
def nullIdx : Nat → List (Slot τ) → List (Slot τ)
  | _, [] => []
  | 0, (_, r) :: rest => (none, r) :: rest
  | n + 1, s :: rest => s :: nullIdx n rest

/-- Termination measure: two per record still inside a run, one per pulled head. -/
def slotsMeasure (slots : List (Slot τ)) : Nat :=
  (slots.map (fun s => 2 * s.2.length + (if s.1.isSome then 1 else 0))).sum

/-- The main merge loop (`for { ... }`): refill the empty heads, scan for the
candidate, emit it and null its slot; stop when no candidate remains.  `fuel`
bounds the iterations; `slotsMeasure + 1` is always enough. -/
def mergeLoop (key : τ → String) (dedup asc : Bool) : Nat → List (Slot τ) → List τ
  | 0, _ => []
  | fuel + 1, slots =>
    let slots₁ := slots.map refillSlot
    match scanAux key dedup asc none 0 slots₁ with
    | (_, none) => []
    | (slots₂, some (c, i)) => c :: mergeLoop key dedup asc fuel (nullIdx i slots₂)

/-- Run the merge over a list of (already sorted) runs. -/
def mergeRuns (key : τ → String) (dedup asc : Bool) (runs : List (List τ)) : List τ :=
  mergeLoop key dedup asc
    (slotsMeasure (runs.map (fun r => ((none : Option τ), r))) + 1)
    (runs.map (fun r => (none, r)))

/-- Record sequence written by `mergeSortedReadersByCalculatedKey`
(lines 342-394): k-way merge of envelope runs with tie-dropping, emitting
`candidateToWrite.Record` (the payloads). -/
def mergeSortedByCalculatedKeyList (asc : Bool)
    (runs : List (List (SortRecord α))) : List α :=
  (mergeRuns SortRecord.key true asc runs).map SortRecord.record

/-- Record sequence of the reader returned by `SortContentReaderByCalculatedKey`
(lines 280-296): split into sorted runs, then merge. -/
def sortByCalculatedKeyList (B : Nat) (keyFn : α → String) (asc : Bool)
    (input : List α) : List α :=
  mergeSortedByCalculatedKeyList asc (splitChunks B keyFn asc input)

/-- Record sequence of the reader returned by `MergeSortedReaders`
(lines 397-449): the same merge without tie-dropping; `getSortKey` models the
`GetSortKey()` capability of the record type. -/
def mergeSortedReadersList (getSortKey : β → String) (asc : Bool)
    (runs : List (List β)) : List β :=
  mergeRuns getSortKey false asc runs

/-- Modelled from the spec: `DefaultKey`, the array key the engine uses for
files it creates itself, lives in the writer source (not under `src/`);
the spec fixes it to `"results"`. -/
def DefaultKey : String := "results"

/-- Reader returned by `mergeSortedReadersByCalculatedKey`: an explicitly
empty reader when there are no runs, otherwise a fresh reader over the
written merge output. -/
def mergeSortedByCalculatedKeyReader (asc : Bool)
    (runs : List (List (SortRecord α))) : State α :=
  if runs.length = 0 then newEmptyContentReader (fun _ => []) DefaultKey
  else newContentReader (fun _ => mergeSortedByCalculatedKeyList asc runs)
    tempFilePath DefaultKey

/-- Reader returned by `MergeSortedReaders`. -/
def mergeSortedReadersReader (getSortKey : β → String) (asc : Bool)
    (runs : List (List β)) : State β :=
  if runs.length = 0 then newEmptyContentReader (fun _ => []) DefaultKey
  else newContentReader (fun _ => mergeSortedReadersList getSortKey asc runs)
    tempFilePath DefaultKey

/-- Reader returned by `SortContentReaderByCalculatedKey`, draining its input
reader through `NextRecord` like the split loop does. -/
def sortContentReaderByCalculatedKeyReader (B : Nat) (keyFn : α → String)
    (asc : Bool) (cr : State α) : State α :=
  mergeSortedByCalculatedKeyReader asc
    (splitChunks B keyFn asc (collect (cr.records.length + 1) cr).1)

/-- `firstOccurrences keyFn input`: the first record of each distinct key, in
input order — the sequence the dedup-on-tie sort is expected to keep. -/
def firstOccurrences (keyFn : α → String) (input : List α) : List α :=
  input.foldl
    (fun acc r => if keyFn r ∈ acc.map keyFn then acc else acc ++ [r]) []

/-! #### Properties of the candidate scan -/

/-- The scan never touches the run remainders. -/
theorem scanAux_rests (key : τ → String) (dedup asc : Bool) :
    ∀ (slots : List (Slot τ)) (cand : Option (τ × Nat)) (i : Nat),
    (scanAux key dedup asc cand i slots).1.map Prod.snd = slots.map Prod.snd
  | [], cand, i => rfl
  | (h, r) :: rest, cand, i => by
    rw [scanAux.eq_def]
    rcases cand with _ | ⟨c, jc⟩ <;> rcases h with _ | x <;> dsimp only
    · rw [List.map_cons, List.map_cons,
        scanAux_rests key dedup asc rest none (i + 1)]
    · rw [List.map_cons, List.map_cons,
        scanAux_rests key dedup asc rest (some (x, i)) (i + 1)]
    · rw [List.map_cons, List.map_cons,
        scanAux_rests key dedup asc rest (some (c, jc)) (i + 1)]
    · by_cases h₁ : dedup ∧ key x = key c
      · rw [if_pos h₁]
        dsimp only
        rw [List.map_cons, List.map_cons,
          scanAux_rests key dedup asc rest (some (c, jc)) (i + 1)]
      · rw [if_neg h₁]
        by_cases h₂ : compareStrings (key c) (key x) asc
        · rw [if_pos h₂]
          dsimp only
          rw [List.map_cons, List.map_cons,
            scanAux_rests key dedup asc rest (some (x, i)) (i + 1)]
        · rw [if_neg h₂]
          dsimp only
          rw [List.map_cons, List.map_cons,
            scanAux_rests key dedup asc rest (some (c, jc)) (i + 1)]

theorem scanAux_length (key : τ → String) (dedup asc : Bool)
    (slots : List (Slot τ)) (cand : Option (τ × Nat)) (i : Nat) :
    (scanAux key dedup asc cand i slots).1.length = slots.length := by
  have h := scanAux_rests key dedup asc slots cand i
  have := congrArg List.length h
  simpa using this

/-- Every surviving head was already there before the scan. -/
theorem scanAux_heads_origin (key : τ → String) (dedup asc : Bool) :
    ∀ (slots : List (Slot τ)) (cand : Option (τ × Nat)) (i j : Nat)
      (x : τ) (r : List τ),
    (scanAux key dedup asc cand i slots).1[j]? = some (some x, r) →
    slots[j]? = some (some x, r)
  | [], cand, i, j, x, r => by
    intro h
    simp [scanAux] at h
  | (h₀, r₀) :: rest, cand, i, j, x, r => by
    intro h
    rw [scanAux.eq_def] at h
    rcases cand with _ | ⟨c, jc⟩ <;> rcases h₀ with _ | x₀ <;> dsimp only at h
    · cases j with
      | zero => simp at h
      | succ j =>
        rw [List.getElem?_cons_succ] at h ⊢
        exact scanAux_heads_origin key dedup asc rest none (i + 1) j x r h
    · cases j with
      | zero =>
        rw [List.getElem?_cons_zero] at h ⊢
        exact h
      | succ j =>
        rw [List.getElem?_cons_succ] at h ⊢
        exact scanAux_heads_origin key dedup asc rest (some (x₀, i)) (i + 1) j x r h
    · cases j with
      | zero => simp at h
      | succ j =>
        rw [List.getElem?_cons_succ] at h ⊢
        exact scanAux_heads_origin key dedup asc rest (some (c, jc)) (i + 1) j x r h
    · by_cases h₁ : dedup ∧ key x₀ = key c
      · rw [if_pos h₁] at h
        dsimp only at h
        cases j with
        | zero => simp at h
        | succ j =>
          rw [List.getElem?_cons_succ] at h ⊢
          exact scanAux_heads_origin key dedup asc rest (some (c, jc)) (i + 1) j x r h
      · rw [if_neg h₁] at h
        by_cases h₂ : compareStrings (key c) (key x₀) asc
        · rw [if_pos h₂] at h
          dsimp only at h
          cases j with
          | zero =>
            rw [List.getElem?_cons_zero] at h ⊢
            exact h
          | succ j =>
            rw [List.getElem?_cons_succ] at h ⊢
            exact scanAux_heads_origin key dedup asc rest (some (x₀, i)) (i + 1) j x r h
        · rw [if_neg h₂] at h
          dsimp only at h
          cases j with
          | zero =>
            rw [List.getElem?_cons_zero] at h ⊢
            exact h
          | succ j =>
            rw [List.getElem?_cons_succ] at h ⊢
            exact scanAux_heads_origin key dedup asc rest (some (c, jc)) (i + 1) j x r h

/-- Without dedup, the scan changes nothing (only the candidate is computed). -/
theorem scanAux_nodedup (key : τ → String) (asc : Bool) :
    ∀ (slots : List (Slot τ)) (cand : Option (τ × Nat)) (i : Nat),
    (scanAux key false asc cand i slots).1 = slots
  | [], cand, i => rfl
  | (h₀, r₀) :: rest, cand, i => by
    rw [scanAux.eq_def]
    rcases cand with _ | ⟨c, jc⟩ <;> rcases h₀ with _ | x₀ <;> dsimp only
    · rw [scanAux_nodedup key asc rest none (i + 1)]
    · rw [scanAux_nodedup key asc rest (some (x₀, i)) (i + 1)]
    · rw [scanAux_nodedup key asc rest (some (c, jc)) (i + 1)]
    · rw [if_neg (by simp)]
      by_cases h₂ : compareStrings (key c) (key x₀) asc
      · rw [if_pos h₂]
        dsimp only
        rw [scanAux_nodedup key asc rest (some (x₀, i)) (i + 1)]
      · rw [if_neg h₂]
        dsimp only
        rw [scanAux_nodedup key asc rest (some (c, jc)) (i + 1)]

/-- A `some` candidate in never lost. -/
theorem scanAux_some (key : τ → String) (dedup asc : Bool) :
    ∀ (slots : List (Slot τ)) (c : τ) (jc i : Nat),
    ∃ p, (scanAux key dedup asc (some (c, jc)) i slots).2 = some p
  | [], c, jc, i => ⟨(c, jc), rfl⟩
  | (h₀, r₀) :: rest, c, jc, i => by
    rw [scanAux.eq_def]
    rcases h₀ with _ | x₀ <;> dsimp only
    · exact scanAux_some key dedup asc rest c jc (i + 1)
    · by_cases h₁ : dedup ∧ key x₀ = key c
      · rw [if_pos h₁]
        exact scanAux_some key dedup asc rest c jc (i + 1)
      · rw [if_neg h₁]
        by_cases h₂ : compareStrings (key c) (key x₀) asc
        · rw [if_pos h₂]
          exact scanAux_some key dedup asc rest x₀ i (i + 1)
        · rw [if_neg h₂]
          exact scanAux_some key dedup asc rest c jc (i + 1)

/-- A `none` result means: no candidate came in and no head was available;
the slots are returned unchanged. -/
theorem scanAux_none (key : τ → String) (dedup asc : Bool) :
    ∀ (slots : List (Slot τ)) (cand : Option (τ × Nat)) (i : Nat),
    (scanAux key dedup asc cand i slots).2 = none →
    cand = none ∧ (∀ s ∈ slots, s.1 = none) ∧
      (scanAux key dedup asc cand i slots).1 = slots
  | [], cand, i => by
    intro h
    exact ⟨h, by simp, rfl⟩
  | (h₀, r₀) :: rest, cand, i => by
    intro h
    rw [scanAux.eq_def] at h ⊢
    rcases cand with _ | ⟨c, jc⟩ <;> rcases h₀ with _ | x₀ <;> dsimp only at h ⊢
    · obtain ⟨-, hall, heq⟩ := scanAux_none key dedup asc rest none (i + 1) h
      refine ⟨rfl, ?_, by rw [heq]⟩
      intro s hs
      rcases List.mem_cons.mp hs with hs | hs
      · rw [hs]
      · exact hall s hs
    · obtain ⟨p, hp⟩ := scanAux_some key dedup asc rest x₀ i (i + 1)
      rw [hp] at h
      cases h
    · obtain ⟨p, hp⟩ := scanAux_some key dedup asc rest c jc (i + 1)
      rw [hp] at h
      cases h
    · by_cases h₁ : dedup ∧ key x₀ = key c
      · rw [if_pos h₁] at h
        obtain ⟨p, hp⟩ := scanAux_some key dedup asc rest c jc (i + 1)
        rw [hp] at h
        cases h
      · rw [if_neg h₁] at h
        by_cases h₂ : compareStrings (key c) (key x₀) asc
        · rw [if_pos h₂] at h
          obtain ⟨p, hp⟩ := scanAux_some key dedup asc rest x₀ i (i + 1)
          rw [hp] at h
          cases h
        · rw [if_neg h₂] at h
          obtain ⟨p, hp⟩ := scanAux_some key dedup asc rest c jc (i + 1)
          rw [hp] at h
          cases h

/-- The candidate only ever changes to a strictly better one. -/
theorem scanAux_descent (key : τ → String) (dedup asc : Bool) :
    ∀ (slots : List (Slot τ)) (c : τ) (jc i : Nat) (p : τ × Nat),
    (scanAux key dedup asc (some (c, jc)) i slots).2 = some p →
    p = (c, jc) ∨ dirLT asc (key p.1) (key c)
  | [], c, jc, i, p => by
    intro h
    rw [scanAux.eq_def] at h
    dsimp only at h
    cases h
    exact Or.inl rfl
  | (h₀, r₀) :: rest, c, jc, i, p => by
    intro h
    rw [scanAux.eq_def] at h
    rcases h₀ with _ | x₀ <;> dsimp only at h
    · exact scanAux_descent key dedup asc rest c jc (i + 1) p h
    · by_cases h₁ : dedup ∧ key x₀ = key c
      · rw [if_pos h₁] at h
        exact scanAux_descent key dedup asc rest c jc (i + 1) p h
      · rw [if_neg h₁] at h
        by_cases h₂ : compareStrings (key c) (key x₀) asc
        · rw [if_pos h₂] at h
          have hlt : dirLT asc (key x₀) (key c) := compareStrings_iff.mp h₂
          rcases scanAux_descent key dedup asc rest x₀ i (i + 1) p h with heq | hlt'
          · rw [heq]
            exact Or.inr hlt
          · exact Or.inr (dirLT_trans hlt' hlt)
        · rw [if_neg h₂] at h
          exact scanAux_descent key dedup asc rest c jc (i + 1) p h

/-- The final candidate is at least as good as every original head. -/
theorem scanAux_best (key : τ → String) (dedup asc : Bool) :
    ∀ (slots : List (Slot τ)) (cand : Option (τ × Nat)) (i : Nat) (p : τ × Nat),
    (scanAux key dedup asc cand i slots).2 = some p →
    ∀ (j : Nat) (x : τ) (r : List τ), slots[j]? = some (some x, r) →
    ¬ dirLT asc (key x) (key p.1)
  | [], cand, i, p => by
    intro _ j x r hj
    simp at hj
  | (h₀, r₀) :: rest, cand, i, p => by
    intro h j x r hj
    rw [scanAux.eq_def] at h
    rcases cand with _ | ⟨c, jc⟩ <;> rcases h₀ with _ | x₀ <;> dsimp only at h
    · cases j with
      | zero => simp at hj
      | succ j =>
        rw [List.getElem?_cons_succ] at hj
        exact scanAux_best key dedup asc rest none (i + 1) p h j x r hj
    · cases j with
      | zero =>
        rw [List.getElem?_cons_zero] at hj
        simp only [Option.some.injEq, Prod.mk.injEq] at hj
        obtain ⟨h1, -⟩ := hj
        subst h1
        rcases scanAux_descent key dedup asc rest x₀ i (i + 1) p h with heq | hlt
        · rw [heq]
          exact dirLT_irrefl asc (key x₀)
        · exact dirLT_asymm hlt
      | succ j =>
        rw [List.getElem?_cons_succ] at hj
        exact scanAux_best key dedup asc rest (some (x₀, i)) (i + 1) p h j x r hj
    · cases j with
      | zero => simp at hj
      | succ j =>
        rw [List.getElem?_cons_succ] at hj
        exact scanAux_best key dedup asc rest (some (c, jc)) (i + 1) p h j x r hj
    · by_cases h₁ : dedup ∧ key x₀ = key c
      · rw [if_pos h₁] at h
        cases j with
        | zero =>
          rw [List.getElem?_cons_zero] at hj
          simp only [Option.some.injEq, Prod.mk.injEq] at hj
          obtain ⟨h1, -⟩ := hj
          subst h1
          rcases scanAux_descent key dedup asc rest c jc (i + 1) p h with heq | hlt
          · rw [heq, h₁.2]
            exact dirLT_irrefl asc (key c)
          · intro hcon
            rw [h₁.2] at hcon
            exact dirLT_asymm hlt hcon
        | succ j =>
          rw [List.getElem?_cons_succ] at hj
          exact scanAux_best key dedup asc rest (some (c, jc)) (i + 1) p h j x r hj
      · rw [if_neg h₁] at h
        by_cases h₂ : compareStrings (key c) (key x₀) asc
        · rw [if_pos h₂] at h
          cases j with
          | zero =>
            rw [List.getElem?_cons_zero] at hj
            simp only [Option.some.injEq, Prod.mk.injEq] at hj
            obtain ⟨h1, -⟩ := hj
            subst h1
            rcases scanAux_descent key dedup asc rest x₀ i (i + 1) p h with heq | hlt
            · rw [heq]
              exact dirLT_irrefl asc (key x₀)
            · exact dirLT_asymm hlt
          | succ j =>
            rw [List.getElem?_cons_succ] at hj
            exact scanAux_best key dedup asc rest (some (x₀, i)) (i + 1) p h j x r hj
        · rw [if_neg h₂] at h
          cases j with
          | zero =>
            rw [List.getElem?_cons_zero] at hj
            simp only [Option.some.injEq, Prod.mk.injEq] at hj
            obtain ⟨h1, -⟩ := hj
            subst h1
            have hnlt : ¬ dirLT asc (key x₀) (key c) := fun hc =>
              h₂ (compareStrings_iff.mpr hc)
            rcases scanAux_descent key dedup asc rest c jc (i + 1) p h with heq | hlt
            · rw [heq]
              exact hnlt
            · intro hcon
              exact hnlt (dirLT_trans hcon hlt)
          | succ j =>
            rw [List.getElem?_cons_succ] at hj
            exact scanAux_best key dedup asc rest (some (c, jc)) (i + 1) p h j x r hj

/-- With dedup on, no head with the final candidate's key survives at any
other index: duplicates of the winner are dropped within the scan. -/
theorem scanAux_unique (key : τ → String) (asc : Bool) :
    ∀ (slots : List (Slot τ)) (cand : Option (τ × Nat)) (i : Nat) (p : τ × Nat)
      (j : Nat) (y : τ) (r : List τ),
    (scanAux key true asc cand i slots).2 = some p →
    (scanAux key true asc cand i slots).1[j]? = some (some y, r) →
    key y = key p.1 → i + j = p.2
  | [], cand, i, p, j, y, r => by
    intro _ hj
    simp [scanAux] at hj
  | (h₀, r₀) :: rest, cand, i, p, j, y, r => by
    intro h hj hk
    rw [scanAux.eq_def] at h hj
    rcases cand with _ | ⟨c, jc⟩ <;> rcases h₀ with _ | x₀ <;> dsimp only at h hj
    · cases j with
      | zero => simp at hj
      | succ j =>
        rw [List.getElem?_cons_succ] at hj
        have := scanAux_unique key asc rest none (i + 1) p j y r h hj hk
        omega
    · cases j with
      | zero =>
        rw [List.getElem?_cons_zero] at hj
        simp only [Option.some.injEq, Prod.mk.injEq] at hj
        obtain ⟨h1, -⟩ := hj
        subst h1
        rcases scanAux_descent key true asc rest x₀ i (i + 1) p h with heq | hlt
        · rw [heq]
          show i + 0 = i
          omega
        · rw [hk] at hlt
          exact absurd hlt (dirLT_irrefl asc _)
      | succ j =>
        rw [List.getElem?_cons_succ] at hj
        have := scanAux_unique key asc rest (some (x₀, i)) (i + 1) p j y r h hj hk
        omega
    · cases j with
      | zero => simp at hj
      | succ j =>
        rw [List.getElem?_cons_succ] at hj
        have := scanAux_unique key asc rest (some (c, jc)) (i + 1) p j y r h hj hk
        omega
    · by_cases h₁ : (true = true) ∧ key x₀ = key c
      · rw [if_pos h₁] at h hj
        cases j with
        | zero => simp at hj
        | succ j =>
          rw [List.getElem?_cons_succ] at hj
          have := scanAux_unique key asc rest (some (c, jc)) (i + 1) p j y r h hj hk
          omega
      · rw [if_neg h₁] at h hj
        by_cases h₂ : compareStrings (key c) (key x₀) asc
        · rw [if_pos h₂] at h hj
          cases j with
          | zero =>
            rw [List.getElem?_cons_zero] at hj
            simp only [Option.some.injEq, Prod.mk.injEq] at hj
            obtain ⟨h1, -⟩ := hj
            subst h1
            rcases scanAux_descent key true asc rest x₀ i (i + 1) p h with heq | hlt
            · rw [heq]
              show i + 0 = i
              omega
            · rw [hk] at hlt
              exact absurd hlt (dirLT_irrefl asc _)
          | succ j =>
            rw [List.getElem?_cons_succ] at hj
            have := scanAux_unique key asc rest (some (x₀, i)) (i + 1) p j y r h hj hk
            omega
        · rw [if_neg h₂] at h hj
          cases j with
          | zero =>
            rw [List.getElem?_cons_zero] at hj
            simp only [Option.some.injEq, Prod.mk.injEq] at hj
            obtain ⟨h1, -⟩ := hj
            subst h1
            exfalso
            rcases scanAux_descent key true asc rest c jc (i + 1) p h with heq | hlt
            · rw [heq] at hk
              exact h₁ ⟨rfl, hk⟩
            · rw [hk] at h₂
              exact h₂ (compareStrings_iff.mpr hlt)
          | succ j =>
            rw [List.getElem?_cons_succ] at hj
            have := scanAux_unique key asc rest (some (c, jc)) (i + 1) p j y r h hj hk
            omega

/-- A dropped head's key is covered: either it equals the incoming
candidate's key or an earlier surviving head carries the same key. -/
theorem scanAux_dropped (key : τ → String) (dedup asc : Bool) :
    ∀ (slots : List (Slot τ)) (cand : Option (τ × Nat)) (i : Nat)
      (j : Nat) (x : τ) (r : List τ),
    slots[j]? = some (some x, r) →
    (scanAux key dedup asc cand i slots).1[j]? = some (none, r) →
    (∃ q : τ × Nat, cand = some q ∧ key q.1 = key x) ∨
      (∃ j' : Nat, j' < j ∧ ∃ y : τ, ∃ r' : List τ,
        (scanAux key dedup asc cand i slots).1[j']? = some (some y, r') ∧
          key y = key x)
  | [], cand, i, j, x, r => by
    intro hj
    simp at hj
  | (h₀, r₀) :: rest, cand, i, j, x, r => by
    intro hj hj'
    rw [scanAux.eq_def] at hj' ⊢
    rcases cand with _ | ⟨c, jc⟩ <;> rcases h₀ with _ | x₀ <;>
      dsimp only at hj' ⊢
    · cases j with
      | zero => simp at hj
      | succ j =>
        rw [List.getElem?_cons_succ] at hj hj'
        rcases scanAux_dropped key dedup asc rest none (i + 1) j x r hj hj' with
          ⟨q, hq, -⟩ | ⟨j', hlt, y, r', hy, hk⟩
        · cases hq
        · exact Or.inr ⟨j' + 1, by omega, y, r',
            by rw [List.getElem?_cons_succ]; exact hy, hk⟩
    · cases j with
      | zero =>
        rw [List.getElem?_cons_zero] at hj'
        simp at hj'
      | succ j =>
        rw [List.getElem?_cons_succ] at hj hj'
        rcases scanAux_dropped key dedup asc rest (some (x₀, i)) (i + 1) j x r hj hj' with
          ⟨q, hq, hk⟩ | ⟨j', hlt, y, r', hy, hk⟩
        · simp only [Option.some.injEq] at hq
          refine Or.inr ⟨0, by omega, x₀, r₀, by rw [List.getElem?_cons_zero], ?_⟩
          rw [← hq] at hk
          exact hk
        · exact Or.inr ⟨j' + 1, by omega, y, r',
            by rw [List.getElem?_cons_succ]; exact hy, hk⟩
    · cases j with
      | zero => simp at hj
      | succ j =>
        rw [List.getElem?_cons_succ] at hj hj'
        rcases scanAux_dropped key dedup asc rest (some (c, jc)) (i + 1) j x r hj hj' with
          ⟨q, hq, hk⟩ | ⟨j', hlt, y, r', hy, hk⟩
        · simp only [Option.some.injEq] at hq
          refine Or.inl ⟨(c, jc), rfl, ?_⟩
          rw [← hq] at hk
          exact hk
        · exact Or.inr ⟨j' + 1, by omega, y, r',
            by rw [List.getElem?_cons_succ]; exact hy, hk⟩
    · by_cases h₁ : dedup ∧ key x₀ = key c
      · rw [if_pos h₁] at hj' ⊢
        cases j with
        | zero =>
          rw [List.getElem?_cons_zero] at hj
          simp only [Option.some.injEq, Prod.mk.injEq] at hj
          obtain ⟨h1, -⟩ := hj
          subst h1
          exact Or.inl ⟨(c, jc), rfl, h₁.2.symm⟩
        | succ j =>
          rw [List.getElem?_cons_succ] at hj hj'
          rcases scanAux_dropped key dedup asc rest (some (c, jc)) (i + 1) j x r hj hj' with
            ⟨q, hq, hk⟩ | ⟨j', hlt, y, r', hy, hk⟩
          · simp only [Option.some.injEq] at hq
            refine Or.inl ⟨(c, jc), rfl, ?_⟩
            rw [← hq] at hk
            exact hk
          · exact Or.inr ⟨j' + 1, by omega, y, r',
              by rw [List.getElem?_cons_succ]; exact hy, hk⟩
      · rw [if_neg h₁] at hj' ⊢
        by_cases h₂ : compareStrings (key c) (key x₀) asc
        · rw [if_pos h₂] at hj' ⊢
          cases j with
          | zero =>
            rw [List.getElem?_cons_zero] at hj'
            simp at hj'
          | succ j =>
            rw [List.getElem?_cons_succ] at hj hj'
            rcases scanAux_dropped key dedup asc rest (some (x₀, i)) (i + 1) j x r hj hj' with
              ⟨q, hq, hk⟩ | ⟨j', hlt, y, r', hy, hk⟩
            · simp only [Option.some.injEq] at hq
              refine Or.inr ⟨0, by omega, x₀, r₀, by rw [List.getElem?_cons_zero], ?_⟩
              rw [← hq] at hk
              exact hk
            · exact Or.inr ⟨j' + 1, by omega, y, r',
                by rw [List.getElem?_cons_succ]; exact hy, hk⟩
        · rw [if_neg h₂] at hj' ⊢
          cases j with
          | zero =>
            rw [List.getElem?_cons_zero] at hj'
            simp at hj'
          | succ j =>
            rw [List.getElem?_cons_succ] at hj hj'
            rcases scanAux_dropped key dedup asc rest (some (c, jc)) (i + 1) j x r hj hj' with
              ⟨q, hq, hk⟩ | ⟨j', hlt, y, r', hy, hk⟩
            · simp only [Option.some.injEq] at hq
              refine Or.inl ⟨(c, jc), rfl, ?_⟩
              rw [← hq] at hk
              exact hk
            · exact Or.inr ⟨j' + 1, by omega, y, r',
                by rw [List.getElem?_cons_succ]; exact hy, hk⟩

/-- The final candidate is the incoming one or a surviving head, recorded at
its absolute index. -/
theorem scanAux_cand_src (key : τ → String) (dedup asc : Bool) :
    ∀ (slots : List (Slot τ)) (cand : Option (τ × Nat)) (i : Nat),
    (scanAux key dedup asc cand i slots).2 = cand ∨
      ∃ (j : Nat) (x : τ) (r : List τ),
        (scanAux key dedup asc cand i slots).2 = some (x, i + j) ∧
        (scanAux key dedup asc cand i slots).1[j]? = some (some x, r)
  | [], cand, i => Or.inl rfl
  | (h₀, r₀) :: rest, cand, i => by
    rw [scanAux.eq_def]
    rcases cand with _ | ⟨c, jc⟩ <;> rcases h₀ with _ | x₀ <;> dsimp only
    · rcases scanAux_cand_src key dedup asc rest none (i + 1) with h | ⟨j, x, r, h1, h2⟩
      · exact Or.inl h
      · exact Or.inr ⟨j + 1, x, r, by rw [h1, show i + (j + 1) = i + 1 + j from by omega],
          by rw [List.getElem?_cons_succ]; exact h2⟩
    · rcases scanAux_cand_src key dedup asc rest (some (x₀, i)) (i + 1) with h | ⟨j, x, r, h1, h2⟩
      · exact Or.inr ⟨0, x₀, r₀, by rw [h]; rfl, by rw [List.getElem?_cons_zero]⟩
      · exact Or.inr ⟨j + 1, x, r, by rw [h1, show i + (j + 1) = i + 1 + j from by omega],
          by rw [List.getElem?_cons_succ]; exact h2⟩
    · rcases scanAux_cand_src key dedup asc rest (some (c, jc)) (i + 1) with h | ⟨j, x, r, h1, h2⟩
      · exact Or.inl h
      · exact Or.inr ⟨j + 1, x, r, by rw [h1, show i + (j + 1) = i + 1 + j from by omega],
          by rw [List.getElem?_cons_succ]; exact h2⟩
    · by_cases h₁ : dedup ∧ key x₀ = key c
      · rw [if_pos h₁]
        dsimp only
        rcases scanAux_cand_src key dedup asc rest (some (c, jc)) (i + 1) with h | ⟨j, x, r, h1, h2⟩
        · exact Or.inl h
        · exact Or.inr ⟨j + 1, x, r, by rw [h1, show i + (j + 1) = i + 1 + j from by omega],
            by rw [List.getElem?_cons_succ]; exact h2⟩
      · rw [if_neg h₁]
        by_cases h₂ : compareStrings (key c) (key x₀) asc
        · rw [if_pos h₂]
          dsimp only
          rcases scanAux_cand_src key dedup asc rest (some (x₀, i)) (i + 1) with h | ⟨j, x, r, h1, h2⟩
          · exact Or.inr ⟨0, x₀, r₀, by rw [h]; rfl,
              by rw [List.getElem?_cons_zero]⟩
          · exact Or.inr ⟨j + 1, x, r, by rw [h1, show i + (j + 1) = i + 1 + j from by omega],
              by rw [List.getElem?_cons_succ]; exact h2⟩
        · rw [if_neg h₂]
          dsimp only
          rcases scanAux_cand_src key dedup asc rest (some (c, jc)) (i + 1) with h | ⟨j, x, r, h1, h2⟩
          · exact Or.inl h
          · exact Or.inr ⟨j + 1, x, r, by rw [h1, show i + (j + 1) = i + 1 + j from by omega],
              by rw [List.getElem?_cons_succ]; exact h2⟩

/-- Every scanned slot keeps its rest; its head survives or is nulled. -/
theorem scanAux_slots_shape (key : τ → String) (dedup asc : Bool) :
    ∀ (slots : List (Slot τ)) (cand : Option (τ × Nat)) (i j : Nat) (s₂ : Slot τ),
    (scanAux key dedup asc cand i slots).1[j]? = some s₂ →
    ∃ s₁, slots[j]? = some s₁ ∧ s₁.2 = s₂.2 ∧ (s₂.1 = s₁.1 ∨ s₂.1 = none)
  | [], cand, i, j, s₂ => by
    intro h
    simp [scanAux] at h
  | (h₀, r₀) :: rest, cand, i, j, s₂ => by
    intro h
    rw [scanAux.eq_def] at h
    rcases cand with _ | ⟨c, jc⟩ <;> rcases h₀ with _ | x₀ <;> dsimp only at h
    · cases j with
      | zero =>
        rw [List.getElem?_cons_zero] at h
        cases h
        exact ⟨(none, r₀), by rw [List.getElem?_cons_zero], rfl, Or.inl rfl⟩
      | succ j =>
        rw [List.getElem?_cons_succ] at h
        obtain ⟨s₁, h1, h2, h3⟩ := scanAux_slots_shape key dedup asc rest none (i + 1) j s₂ h
        exact ⟨s₁, by rw [List.getElem?_cons_succ]; exact h1, h2, h3⟩
    · cases j with
      | zero =>
        rw [List.getElem?_cons_zero] at h
        cases h
        exact ⟨(some x₀, r₀), by rw [List.getElem?_cons_zero], rfl, Or.inl rfl⟩
      | succ j =>
        rw [List.getElem?_cons_succ] at h
        obtain ⟨s₁, h1, h2, h3⟩ := scanAux_slots_shape key dedup asc rest (some (x₀, i)) (i + 1) j s₂ h
        exact ⟨s₁, by rw [List.getElem?_cons_succ]; exact h1, h2, h3⟩
    · cases j with
      | zero =>
        rw [List.getElem?_cons_zero] at h
        cases h
        exact ⟨(none, r₀), by rw [List.getElem?_cons_zero], rfl, Or.inl rfl⟩
      | succ j =>
        rw [List.getElem?_cons_succ] at h
        obtain ⟨s₁, h1, h2, h3⟩ := scanAux_slots_shape key dedup asc rest (some (c, jc)) (i + 1) j s₂ h
        exact ⟨s₁, by rw [List.getElem?_cons_succ]; exact h1, h2, h3⟩
    · by_cases h₁ : dedup ∧ key x₀ = key c
      · rw [if_pos h₁] at h
        dsimp only at h
        cases j with
        | zero =>
          rw [List.getElem?_cons_zero] at h
          cases h
          exact ⟨(some x₀, r₀), by rw [List.getElem?_cons_zero], rfl, Or.inr rfl⟩
        | succ j =>
          rw [List.getElem?_cons_succ] at h
          obtain ⟨s₁, h1, h2, h3⟩ := scanAux_slots_shape key dedup asc rest (some (c, jc)) (i + 1) j s₂ h
          exact ⟨s₁, by rw [List.getElem?_cons_succ]; exact h1, h2, h3⟩
      · rw [if_neg h₁] at h
        by_cases h₂ : compareStrings (key c) (key x₀) asc
        · rw [if_pos h₂] at h
          dsimp only at h
          cases j with
          | zero =>
            rw [List.getElem?_cons_zero] at h
            cases h
            exact ⟨(some x₀, r₀), by rw [List.getElem?_cons_zero], rfl, Or.inl rfl⟩
          | succ j =>
            rw [List.getElem?_cons_succ] at h
            obtain ⟨s₁, h1, h2, h3⟩ :=
              scanAux_slots_shape key dedup asc rest (some (x₀, i)) (i + 1) j s₂ h
            exact ⟨s₁, by rw [List.getElem?_cons_succ]; exact h1, h2, h3⟩
        · rw [if_neg h₂] at h
          dsimp only at h
          cases j with
          | zero =>
            rw [List.getElem?_cons_zero] at h
            cases h
            exact ⟨(some x₀, r₀), by rw [List.getElem?_cons_zero], rfl, Or.inl rfl⟩
          | succ j =>
            rw [List.getElem?_cons_succ] at h
            obtain ⟨s₁, h1, h2, h3⟩ :=
              scanAux_slots_shape key dedup asc rest (some (c, jc)) (i + 1) j s₂ h
            exact ⟨s₁, by rw [List.getElem?_cons_succ]; exact h1, h2, h3⟩

/-! #### Slot-level machinery -/

theorem refillSlot_contents (s : Slot τ) :
    slotContents (refillSlot s) = slotContents s := by
  rcases s with ⟨_ | x, _ | ⟨y, r⟩⟩ <;> rfl

/-- After the refill, a headless slot is fully exhausted. -/
theorem refillSlot_none {s : Slot τ} (h : (refillSlot s).1 = none) :
    refillSlot s = (none, []) := by
  rcases s with ⟨_ | x, _ | ⟨y, r⟩⟩ <;> first | rfl | simp [refillSlot] at h

/-- After the refill, a slot with remaining records has a head. -/
theorem refillSlot_rest {s : Slot τ} {r : List τ} (h : (refillSlot s).2 = r)
    (hne : r ≠ []) : ∃ x, (refillSlot s).1 = some x := by
  rcases s with ⟨_ | x, _ | ⟨y, r'⟩⟩
  · exact absurd h.symm hne
  · exact ⟨y, rfl⟩
  · exact ⟨x, rfl⟩
  · exact ⟨x, rfl⟩

def slotMeasure (s : Slot τ) : Nat :=
  2 * s.2.length + (if s.1.isSome then 1 else 0)

theorem slotsMeasure_eq (slots : List (Slot τ)) :
    slotsMeasure slots = (slots.map slotMeasure).sum := rfl

theorem refillSlot_measure (s : Slot τ) :
    slotMeasure (refillSlot s) ≤ slotMeasure s := by
  rcases s with ⟨_ | x, _ | ⟨y, r⟩⟩ <;> simp [refillSlot, slotMeasure] <;> omega

theorem refill_measure (slots : List (Slot τ)) :
    slotsMeasure (slots.map refillSlot) ≤ slotsMeasure slots := by
  induction slots with
  | nil => exact le_refl _
  | cons s rest ih =>
    rw [List.map_cons, slotsMeasure_eq, List.map_cons, List.sum_cons,
      slotsMeasure_eq (s :: rest), List.map_cons, List.sum_cons]
    exact Nat.add_le_add (refillSlot_measure s) ih

theorem scanAux_measure (key : τ → String) (dedup asc : Bool) :
    ∀ (slots : List (Slot τ)) (cand : Option (τ × Nat)) (i : Nat),
    slotsMeasure (scanAux key dedup asc cand i slots).1 ≤ slotsMeasure slots
  | [], cand, i => le_refl _
  | (h₀, r₀) :: rest, cand, i => by
    rw [scanAux.eq_def]
    rcases cand with _ | ⟨c, jc⟩ <;> rcases h₀ with _ | x₀ <;> dsimp only
    · rw [slotsMeasure_eq, List.map_cons, List.sum_cons,
        slotsMeasure_eq ((none, r₀) :: rest), List.map_cons, List.sum_cons]
      exact Nat.add_le_add (le_refl _) (scanAux_measure key dedup asc rest none (i + 1))
    · rw [slotsMeasure_eq, List.map_cons, List.sum_cons,
        slotsMeasure_eq ((some x₀, r₀) :: rest), List.map_cons, List.sum_cons]
      exact Nat.add_le_add (le_refl _)
        (scanAux_measure key dedup asc rest (some (x₀, i)) (i + 1))
    · rw [slotsMeasure_eq, List.map_cons, List.sum_cons,
        slotsMeasure_eq ((none, r₀) :: rest), List.map_cons, List.sum_cons]
      exact Nat.add_le_add (le_refl _)
        (scanAux_measure key dedup asc rest (some (c, jc)) (i + 1))
    · by_cases h₁ : dedup ∧ key x₀ = key c
      · rw [if_pos h₁]
        dsimp only
        rw [slotsMeasure_eq, List.map_cons, List.sum_cons,
          slotsMeasure_eq ((some x₀, r₀) :: rest), List.map_cons, List.sum_cons]
        refine Nat.add_le_add ?_ (scanAux_measure key dedup asc rest (some (c, jc)) (i + 1))
        simp [slotMeasure]
      · rw [if_neg h₁]
        by_cases h₂ : compareStrings (key c) (key x₀) asc
        · rw [if_pos h₂]
          dsimp only
          rw [slotsMeasure_eq, List.map_cons, List.sum_cons,
            slotsMeasure_eq ((some x₀, r₀) :: rest), List.map_cons, List.sum_cons]
          exact Nat.add_le_add (le_refl _)
            (scanAux_measure key dedup asc rest (some (x₀, i)) (i + 1))
        · rw [if_neg h₂]
          dsimp only
          rw [slotsMeasure_eq, List.map_cons, List.sum_cons,
            slotsMeasure_eq ((some x₀, r₀) :: rest), List.map_cons, List.sum_cons]
          exact Nat.add_le_add (le_refl _)
            (scanAux_measure key dedup asc rest (some (c, jc)) (i + 1))

theorem nullIdx_rests (i : Nat) (slots : List (Slot τ)) :
    (nullIdx i slots).map Prod.snd = slots.map Prod.snd := by
  induction slots generalizing i with
  | nil => cases i <;> rfl
  | cons s rest ih =>
    rcases s with ⟨h, r⟩
    cases i with
    | zero => rfl
    | succ i =>
      rw [nullIdx, List.map_cons, List.map_cons, ih i]

theorem nullIdx_get_ne (i : Nat) (slots : List (Slot τ)) (j : Nat) (hne : j ≠ i) :
    (nullIdx i slots)[j]? = slots[j]? := by
  induction slots generalizing i j with
  | nil => cases i <;> rfl
  | cons s rest ih =>
    rcases s with ⟨h, r⟩
    cases i with
    | zero =>
      cases j with
      | zero => exact absurd rfl hne
      | succ j => rw [nullIdx, List.getElem?_cons_succ, List.getElem?_cons_succ]
    | succ i =>
      cases j with
      | zero => rw [nullIdx, List.getElem?_cons_zero, List.getElem?_cons_zero]
      | succ j =>
        rw [nullIdx, List.getElem?_cons_succ, List.getElem?_cons_succ]
        exact ih i j (by omega)

theorem nullIdx_get_eq {i : Nat} {slots : List (Slot τ)} {h : Option τ}
    {r : List τ} (hget : slots[i]? = some (h, r)) :
    (nullIdx i slots)[i]? = some ((none : Option τ), r) := by
  induction slots generalizing i with
  | nil => simp at hget
  | cons s rest ih =>
    rcases s with ⟨h', r'⟩
    cases i with
    | zero =>
      rw [List.getElem?_cons_zero] at hget
      simp only [Option.some.injEq, Prod.mk.injEq] at hget
      rw [nullIdx, List.getElem?_cons_zero, hget.2]
    | succ i =>
      rw [List.getElem?_cons_succ] at hget
      rw [nullIdx, List.getElem?_cons_succ]
      exact ih hget

theorem nullIdx_measure {i : Nat} {slots : List (Slot τ)} {x : τ} {r : List τ}
    (hget : slots[i]? = some (some x, r)) :
    slotsMeasure (nullIdx i slots) + 1 = slotsMeasure slots := by
  induction slots generalizing i with
  | nil => simp at hget
  | cons s rest ih =>
    rcases s with ⟨h', r'⟩
    cases i with
    | zero =>
      rw [List.getElem?_cons_zero] at hget
      simp only [Option.some.injEq, Prod.mk.injEq] at hget
      rw [nullIdx, slotsMeasure_eq, List.map_cons, List.sum_cons,
        slotsMeasure_eq ((h', r') :: rest), List.map_cons, List.sum_cons,
        hget.1]
      simp [slotMeasure]
      omega
    | succ i =>
      rw [List.getElem?_cons_succ] at hget
      rw [nullIdx, slotsMeasure_eq, List.map_cons, List.sum_cons,
        slotsMeasure_eq ((h', r') :: rest), List.map_cons, List.sum_cons]
      have := ih hget
      rw [slotsMeasure_eq] at this
      rw [slotsMeasure_eq] at this
      omega

/-! #### Keyed lookup across runs -/

/-- The unique record with key `k` in a (nodup-keys) record list, if any. -/
def findByKey (key : τ → String) (k : String) (l : List τ) : Option τ :=
  l.find? (fun x => key x == k)

/-- The record for key `k` in the earliest container holding `k`. -/
def firstRecordIn (key : τ → String) (k : String) : List (List τ) → Option τ
  | [] => none
  | c :: cs =>
    match findByKey key k c with
    | some x => some x
    | none => firstRecordIn key k cs

/-- Contents of a slot list, one record list per slot, heads first. -/
def slotsContents (slots : List (Slot τ)) : List (List τ) :=
  slots.map slotContents

/-- Per-slot contents sorted strictly by key in the requested direction. -/
def GoodSlots (key : τ → String) (asc : Bool) (slots : List (Slot τ)) : Prop :=
  ∀ s ∈ slots, List.Chain' (fun a b => dirLT asc (key a) (key b)) (slotContents s)

/-- Key `k` still present somewhere in the state. -/
def hasKeySlots (key : τ → String) (k : String) (slots : List (Slot τ)) : Prop :=
  ∃ s ∈ slots, ∃ x ∈ slotContents s, key x = k

theorem findByKey_none_iff {key : τ → String} {k : String} {l : List τ} :
    findByKey key k l = none ↔ ∀ x ∈ l, key x ≠ k := by
  unfold findByKey
  rw [List.find?_eq_none]
  constructor
  · intro h x hx
    have := h x hx
    simpa using this
  · intro h x hx
    simpa using h x hx

theorem findByKey_some {key : τ → String} {k : String} {l : List τ} {x : τ}
    (h : findByKey key k l = some x) : x ∈ l ∧ key x = k := by
  refine ⟨List.mem_of_find?_eq_some h, ?_⟩
  have := List.find?_some h
  simpa using this

theorem findByKey_cons_self {key : τ → String} {x : τ} {l : List τ} :
    findByKey key (key x) (x :: l) = some x := by
  unfold findByKey
  rw [List.find?_cons_of_pos]
  simp

theorem findByKey_cons_of_ne {key : τ → String} {k : String} {x : τ} {l : List τ}
    (h : key x ≠ k) : findByKey key k (x :: l) = findByKey key k l := by
  unfold findByKey
  rw [List.find?_cons_of_neg]
  simpa using h

theorem firstRecordIn_none_iff {key : τ → String} {k : String} {L : List (List τ)} :
    firstRecordIn key k L = none ↔ ∀ l ∈ L, findByKey key k l = none := by
  induction L with
  | nil => simp [firstRecordIn]
  | cons l₀ L ih =>
    rw [firstRecordIn]
    cases h : findByKey key k l₀ with
    | some x =>
      simp only []
      constructor
      · intro hc
        cases hc
      · intro hall
        rw [hall l₀ (List.mem_cons_self ..)] at h
        cases h
    | none =>
      simp only []
      rw [ih]
      constructor
      · intro hall l hl
        rcases List.mem_cons.mp hl with rfl | hl
        · exact h
        · exact hall l hl
      · intro hall l hl
        exact hall l (List.mem_cons_of_mem _ hl)

theorem firstRecordIn_eq_some_iff {key : τ → String} {k : String}
    {L : List (List τ)} {x : τ} :
    firstRecordIn key k L = some x ↔
      ∃ (j : Nat) (l : List τ), L[j]? = some l ∧ findByKey key k l = some x ∧
        ∀ j' < j, ∀ l', L[j']? = some l' → findByKey key k l' = none := by
  induction L with
  | nil => simp [firstRecordIn]
  | cons l₀ L ih =>
    rw [firstRecordIn]
    cases h : findByKey key k l₀ with
    | some y =>
      simp only [Option.some.injEq]
      constructor
      · intro hyx
        subst hyx
        exact ⟨0, l₀, by simp, h, by omega⟩
      · rintro ⟨j, l, hj, hfind, hmin⟩
        cases j with
        | zero =>
          rw [List.getElem?_cons_zero] at hj
          cases hj
          rw [h] at hfind
          cases hfind
          rfl
        | succ j =>
          have := hmin 0 (by omega) l₀ (by simp)
          rw [this] at h
          cases h
    | none =>
      simp only []
      rw [ih]
      constructor
      · rintro ⟨j, l, hj, hfind, hmin⟩
        refine ⟨j + 1, l, by rw [List.getElem?_cons_succ]; exact hj, hfind, ?_⟩
        intro j' hj' l' hl'
        cases j' with
        | zero =>
          rw [List.getElem?_cons_zero] at hl'
          cases hl'
          exact h
        | succ j' =>
          rw [List.getElem?_cons_succ] at hl'
          exact hmin j' (by omega) l' hl'
      · rintro ⟨j, l, hj, hfind, hmin⟩
        cases j with
        | zero =>
          rw [List.getElem?_cons_zero] at hj
          cases hj
          rw [h] at hfind
          cases hfind
        | succ j =>
          rw [List.getElem?_cons_succ] at hj
          refine ⟨j, l, hj, hfind, ?_⟩
          intro j' hj' l' hl'
          exact hmin (j' + 1) (by omega) l'
            (by rw [List.getElem?_cons_succ]; exact hl')

theorem firstRecordIn_isSome_iff {key : τ → String} {k : String} {L : List (List τ)} :
    (firstRecordIn key k L).isSome ↔ ∃ l ∈ L, ∃ x ∈ l, key x = k := by
  cases hfr : firstRecordIn key k L with
  | none =>
    rw [firstRecordIn_none_iff] at hfr
    simp only [Option.isSome_none, Bool.false_eq_true, false_iff]
    rintro ⟨l, hl, x, hx, hk⟩
    have := (findByKey_none_iff.mp (hfr l hl)) x hx
    exact this hk
  | some x =>
    simp only [Option.isSome_some, true_iff]
    rw [firstRecordIn_eq_some_iff] at hfr
    obtain ⟨j, l, hj, hfind, -⟩ := hfr
    obtain ⟨hmem, hkey⟩ := findByKey_some hfind
    exact ⟨l, by
      rw [List.mem_iff_getElem?]
      exact ⟨j, hj⟩, x, hmem, hkey⟩

/-- Refilling does not change the per-slot contents. -/
theorem slotsContents_refill (slots : List (Slot τ)) :
    slotsContents (slots.map refillSlot) = slotsContents slots := by
  unfold slotsContents
  rw [List.map_map]
  exact List.map_congr_left (fun s _ => refillSlot_contents s)

/-! #### One iteration of the dedup merge loop -/

theorem length_getElem?_isSome {l : List β} {j : Nat} (h : j < l.length) :
    ∃ s, l[j]? = some s := by
  rw [List.getElem?_eq_getElem h]
  exact ⟨l[j], rfl⟩

theorem getElem?_lt_length {l : List β} {j : Nat} {s : β} (h : l[j]? = some s) :
    j < l.length := by
  by_contra hc
  rw [List.getElem?_eq_none (by omega)] at h
  cases h

/-- The emitted candidate sits, with the same rest, at its index both in the
scanned state and in the refilled state. -/
theorem mergeStep_loc {key : τ → String} {dedup asc : Bool}
    {slots : List (Slot τ)} {c : τ} {idx : Nat}
    (hscan : (scanAux key dedup asc none 0 (slots.map refillSlot)).2 = some (c, idx)) :
    ∃ rc, (scanAux key dedup asc none 0 (slots.map refillSlot)).1[idx]? =
        some (some c, rc)
      ∧ (slots.map refillSlot)[idx]? = some (some c, rc) := by
  rcases scanAux_cand_src key dedup asc (slots.map refillSlot) none 0 with h | ⟨j, x, r, h1, h2⟩
  · rw [hscan] at h
    cases h
  · rw [hscan] at h1
    simp only [Option.some.injEq, Prod.mk.injEq] at h1
    obtain ⟨rfl, hj⟩ := h1
    have hj' : j = idx := by omega
    subst hj'
    obtain ⟨s₁, hs₁, hrest, hhead⟩ :=
      scanAux_slots_shape key dedup asc (slots.map refillSlot) none 0 j _ h2
    rcases s₁ with ⟨h₁, r₁⟩
    rcases hhead with hh | hh
    · refine ⟨r, h2, ?_⟩
      dsimp only at hh hrest
      rw [hs₁, ← hh, hrest]
    · cases hh

/-- In the refilled state every slot is a refilled slot of the original. -/
theorem refill_get {slots : List (Slot τ)} {j : Nat} {s : Slot τ}
    (h : (slots.map refillSlot)[j]? = some s) :
    ∃ s₀, slots[j]? = some s₀ ∧ s = refillSlot s₀ := by
  rw [List.getElem?_map] at h
  cases h₀ : slots[j]? with
  | none => rw [h₀] at h; cases h
  | some s₀ =>
    rw [h₀] at h
    simp only [Option.map_some', Option.some.injEq] at h
    exact ⟨s₀, rfl, h.symm⟩

/-- A headless slot of the refilled state is exhausted. -/
theorem refill_get_none {slots : List (Slot τ)} {j : Nat} {r : List τ}
    (h : (slots.map refillSlot)[j]? = some (none, r)) : r = [] := by
  obtain ⟨s₀, -, hs⟩ := refill_get h
  have := refillSlot_none (s := s₀) (by rw [← hs])
  rw [this] at hs
  cases hs
  rfl

theorem goodSlots_refill {key : τ → String} {asc : Bool} {slots : List (Slot τ)}
    (h : GoodSlots key asc slots) : GoodSlots key asc (slots.map refillSlot) := by
  intro s hs
  obtain ⟨s₀, hs₀, rfl⟩ := List.mem_map.mp hs
  rw [refillSlot_contents]
  exact h s₀ hs₀

/-- In a strictly sorted slot, the head's key strictly precedes every key in
the rest. -/
theorem goodSlots_head_lt {key : τ → String} {asc : Bool}
    {slots : List (Slot τ)} (hgood : GoodSlots key asc slots)
    {j : Nat} {x : τ} {r : List τ} (hget : slots[j]? = some (some x, r)) :
    ∀ y ∈ r, dirLT asc (key x) (key y) := by
  intro y hy
  have hmem : ((some x, r) : Slot τ) ∈ slots := by
    rw [List.mem_iff_getElem?]
    exact ⟨j, hget⟩
  have hchain := hgood _ hmem
  rw [show slotContents ((some x, r) : Slot τ) = x :: r from rfl] at hchain
  haveI : IsTrans τ (fun a b => dirLT asc (key a) (key b)) :=
    ⟨fun _ _ _ h₁ h₂ => dirLT_trans h₁ h₂⟩
  have hpw := List.chain'_iff_pairwise.mp hchain
  exact List.rel_of_pairwise_cons hpw hy

/-- With dedup on, no slot strictly before the winner's contains the winner's
key (in the refilled state). -/
theorem mergeStep_no_earlier {key : τ → String} {asc : Bool}
    {slots : List (Slot τ)} (hgood : GoodSlots key asc slots) {c : τ} {idx : Nat}
    (hscan : (scanAux key true asc none 0 (slots.map refillSlot)).2 = some (c, idx)) :
    ∀ j' < idx, ∀ s, (slots.map refillSlot)[j']? = some s →
    ∀ y ∈ slotContents s, key y ≠ key c := by
  intro j' hj' s hs y hy
  have hgood₁ := goodSlots_refill hgood
  rcases s with ⟨_ | x, r₁⟩
  · have : r₁ = [] := refill_get_none hs
    subst this
    exact absurd hy (List.not_mem_nil y)
  · rcases List.mem_cons.mp (by simpa [slotContents] using hy) with rfl | hy'
    · -- y is the head of slot j'
      have hlen : j' < (scanAux key true asc none 0 (slots.map refillSlot)).1.length := by
        rw [scanAux_length]
        exact lt_of_lt_of_le hj' (le_of_lt (getElem?_lt_length (mergeStep_loc hscan).choose_spec.2))
      obtain ⟨s₂, hs₂⟩ := length_getElem?_isSome hlen
      obtain ⟨s₁', hs₁', hrest, hhead⟩ :=
        scanAux_slots_shape key true asc (slots.map refillSlot) none 0 j' s₂ hs₂
      rw [hs] at hs₁'
      cases hs₁'
      rcases s₂ with ⟨h₂, r₂⟩
      rcases hhead with hh | hh
      · -- head survived
        dsimp only at hh hrest
        subst hh
        intro hk
        have := scanAux_unique key asc (slots.map refillSlot) none 0 (c, idx) j' y r₂
          hscan (by rw [hs₂]) hk
        omega
      · -- head dropped
        dsimp only at hh hrest
        subst hh
        subst hrest
        rcases scanAux_dropped key true asc (slots.map refillSlot) none 0 j' y r₁
            hs (by rw [hs₂]) with ⟨q, hq, -⟩ | ⟨j'', hj'', y', r'', hy'', hk''⟩
        · cases hq
        · intro hk
          rw [hk] at hk''
          have := scanAux_unique key asc (slots.map refillSlot) none 0 (c, idx) j'' y' r''
            hscan hy'' hk''
          omega
    · -- y is inside the rest, below head x
      have hxy := goodSlots_head_lt hgood₁ hs y hy'
      have hbest := scanAux_best key true asc (slots.map refillSlot) none 0 (c, idx)
        hscan j' x r₁ hs
      intro hk
      rw [hk] at hxy
      exact hbest hxy

/-- E1: the emitted record is the key's record in the earliest run holding it. -/
theorem mergeStep_emitted_first {key : τ → String} {asc : Bool}
    {slots : List (Slot τ)} (hgood : GoodSlots key asc slots) {c : τ} {idx : Nat}
    (hscan : (scanAux key true asc none 0 (slots.map refillSlot)).2 = some (c, idx)) :
    firstRecordIn key (key c) (slotsContents slots) = some c := by
  obtain ⟨rc, hS₂, hS₁⟩ := mergeStep_loc hscan
  rw [← slotsContents_refill]
  rw [firstRecordIn_eq_some_iff]
  refine ⟨idx, slotContents (some c, rc), ?_, ?_, ?_⟩
  · unfold slotsContents
    rw [List.getElem?_map, hS₁]
    rfl
  · rw [show slotContents ((some c, rc) : Slot τ) = c :: rc from rfl]
    exact findByKey_cons_self
  · intro j' hj' l' hl'
    unfold slotsContents at hl'
    rw [List.getElem?_map] at hl'
    cases hs : (slots.map refillSlot)[j']? with
    | none => rw [hs] at hl'; cases hl'
    | some s =>
      rw [hs] at hl'
      simp only [Option.map_some', Option.some.injEq] at hl'
      subst hl'
      rw [findByKey_none_iff]
      exact mergeStep_no_earlier hgood hscan j' hj' s hs

theorem nullIdx_length (i : Nat) (slots : List (Slot τ)) :
    (nullIdx i slots).length = slots.length := by
  have := congrArg List.length (nullIdx_rests i slots)
  simpa using this

/-- E3: after the emission step, the emitted key is gone from the state. -/
theorem mergeStep_key_gone {key : τ → String} {asc : Bool}
    {slots : List (Slot τ)} (hgood : GoodSlots key asc slots) {c : τ} {idx : Nat}
    (hscan : (scanAux key true asc none 0 (slots.map refillSlot)).2 = some (c, idx)) :
    ∀ (j : Nat) (s : Slot τ),
    (nullIdx idx (scanAux key true asc none 0 (slots.map refillSlot)).1)[j]? = some s →
    ∀ y ∈ slotContents s, key y ≠ key c := by
  obtain ⟨rc, hS₂idx, hS₁idx⟩ := mergeStep_loc hscan
  have hgood₁ := goodSlots_refill hgood
  intro j s hjs y hy
  by_cases hj : j = idx
  · subst hj
    rw [nullIdx_get_eq hS₂idx] at hjs
    cases hjs
    have hy' : y ∈ rc := by simpa [slotContents] using hy
    have := goodSlots_head_lt hgood₁ hS₁idx y hy'
    intro hk
    rw [hk] at this
    exact dirLT_irrefl asc (key c) this
  · rw [nullIdx_get_ne idx _ j hj] at hjs
    obtain ⟨s₁, hs₁, hrest, hhead⟩ :=
      scanAux_slots_shape key true asc (slots.map refillSlot) none 0 j s hjs
    rcases s with ⟨h₂, r₂⟩
    rcases s₁ with ⟨h₁, r₁⟩
    dsimp only at hrest hhead
    subst hrest
    rcases hhead with hh | hh
    · subst hh
      rcases h₂ with _ | x
      · -- headless refilled slot: empty
        have : r₁ = [] := refill_get_none hs₁
        subst this
        exact absurd hy (List.not_mem_nil y)
      · rcases List.mem_cons.mp (by simpa [slotContents] using hy) with rfl | hy'
        · intro hk
          have := scanAux_unique key asc (slots.map refillSlot) none 0 (c, idx) j y r₁
            hscan hjs hk
          omega
        · have hxy := goodSlots_head_lt hgood₁ hs₁ y hy'
          have hbest := scanAux_best key true asc (slots.map refillSlot) none 0 (c, idx)
            hscan j x r₁ hs₁
          intro hk
          rw [hk] at hxy
          exact hbest hxy
    · subst hh
      have hy' : y ∈ r₁ := by simpa [slotContents] using hy
      rcases h₁ with _ | x
      · have : r₁ = [] := refill_get_none hs₁
        subst this
        exact absurd hy' (List.not_mem_nil y)
      · have hxy := goodSlots_head_lt hgood₁ hs₁ y hy'
        have hbest := scanAux_best key true asc (slots.map refillSlot) none 0 (c, idx)
          hscan j x r₁ hs₁
        intro hk
        rw [hk] at hxy
        exact hbest hxy

/-- No remaining record's key precedes the emitted key. -/
theorem mergeStep_not_lt {key : τ → String} {asc : Bool}
    {slots : List (Slot τ)} (hgood : GoodSlots key asc slots)
    {dedup : Bool} {c : τ} {idx : Nat}
    (hscan : (scanAux key dedup asc none 0 (slots.map refillSlot)).2 = some (c, idx)) :
    ∀ (j : Nat) (s : Slot τ),
    (nullIdx idx (scanAux key dedup asc none 0 (slots.map refillSlot)).1)[j]? = some s →
    ∀ y ∈ slotContents s, ¬ dirLT asc (key y) (key c) := by
  obtain ⟨rc, hS₂idx, hS₁idx⟩ := mergeStep_loc hscan
  have hgood₁ := goodSlots_refill hgood
  intro j s hjs y hy
  by_cases hj : j = idx
  · subst hj
    rw [nullIdx_get_eq hS₂idx] at hjs
    cases hjs
    have hy' : y ∈ rc := by simpa [slotContents] using hy
    exact dirLT_asymm (goodSlots_head_lt hgood₁ hS₁idx y hy')
  · rw [nullIdx_get_ne idx _ j hj] at hjs
    obtain ⟨s₁, hs₁, hrest, hhead⟩ :=
      scanAux_slots_shape key dedup asc (slots.map refillSlot) none 0 j s hjs
    rcases s with ⟨h₂, r₂⟩
    rcases s₁ with ⟨h₁, r₁⟩
    dsimp only at hrest hhead
    subst hrest
    have hofrest : ∀ z ∈ r₁, ¬ dirLT asc (key z) (key c) := by
      intro z hz
      rcases h₁ with _ | x
      · have : r₁ = [] := refill_get_none hs₁
        subst this
        exact absurd hz (List.not_mem_nil z)
      · have hxz := goodSlots_head_lt hgood₁ hs₁ z hz
        have hbest := scanAux_best key dedup asc (slots.map refillSlot) none 0 (c, idx)
          hscan j x r₁ hs₁
        intro hk
        exact hbest (dirLT_trans hxz hk)
    rcases hhead with hh | hh
    · subst hh
      rcases h₂ with _ | x
      · have : r₁ = [] := refill_get_none hs₁
        subst this
        exact absurd (by simpa [slotContents] using hy) (List.not_mem_nil y)
      · rcases List.mem_cons.mp (by simpa [slotContents] using hy) with rfl | hy'
        · exact scanAux_best key dedup asc (slots.map refillSlot) none 0 (c, idx)
            hscan j y r₁ hs₁
        · exact hofrest y hy'
    · subst hh
      exact hofrest y (by simpa [slotContents] using hy)

/-- E5: with dedup on, every remaining key is strictly after the emitted one. -/
theorem mergeStep_greater {key : τ → String} {asc : Bool}
    {slots : List (Slot τ)} (hgood : GoodSlots key asc slots) {c : τ} {idx : Nat}
    (hscan : (scanAux key true asc none 0 (slots.map refillSlot)).2 = some (c, idx)) :
    ∀ (j : Nat) (s : Slot τ),
    (nullIdx idx (scanAux key true asc none 0 (slots.map refillSlot)).1)[j]? = some s →
    ∀ y ∈ slotContents s, dirLT asc (key c) (key y) := by
  intro j s hjs y hy
  have hne := mergeStep_key_gone hgood hscan j s hjs y hy
  have hnlt := mergeStep_not_lt hgood hscan j s hjs y hy
  by_contra hc
  exact hne (eq_of_not_dirLT hnlt hc)

/-- E4: the emission step keeps every slot strictly sorted. -/
theorem mergeStep_good {key : τ → String} {asc dedup : Bool}
    {slots : List (Slot τ)} (hgood : GoodSlots key asc slots) {c : τ} {idx : Nat}
    (hscan : (scanAux key dedup asc none 0 (slots.map refillSlot)).2 = some (c, idx)) :
    GoodSlots key asc
      (nullIdx idx (scanAux key dedup asc none 0 (slots.map refillSlot)).1) := by
  obtain ⟨rc, hS₂idx, hS₁idx⟩ := mergeStep_loc hscan
  have hgood₁ := goodSlots_refill hgood
  intro s hs
  rw [List.mem_iff_getElem?] at hs
  obtain ⟨j, hjs⟩ := hs
  by_cases hj : j = idx
  · subst hj
    rw [nullIdx_get_eq hS₂idx] at hjs
    cases hjs
    have hchain := hgood₁ _ (by
      rw [List.mem_iff_getElem?]
      exact ⟨j, hS₁idx⟩)
    rw [show slotContents ((some c, rc) : Slot τ) = c :: rc from rfl] at hchain
    exact hchain.tail
  · rw [nullIdx_get_ne idx _ j hj] at hjs
    obtain ⟨s₁, hs₁, hrest, hhead⟩ :=
      scanAux_slots_shape key dedup asc (slots.map refillSlot) none 0 j s hjs
    have hchain := hgood₁ _ (by
      rw [List.mem_iff_getElem?]
      exact ⟨j, hs₁⟩)
    rcases s with ⟨h₂, r₂⟩
    rcases s₁ with ⟨h₁, r₁⟩
    dsimp only at hrest hhead
    subst hrest
    rcases hhead with hh | hh
    · subst hh
      exact hchain
    · subst hh
      rcases h₁ with _ | x
      · exact hchain
      · rw [show slotContents ((some x, r₁) : Slot τ) = x :: r₁ from rfl] at hchain
        exact hchain.tail

/-- Remaining slot contents are a subset of the pre-step contents. -/
theorem mergeStep_subset {key : τ → String} {asc dedup : Bool}
    {slots : List (Slot τ)} {c : τ} {idx : Nat}
    (hscan : (scanAux key dedup asc none 0 (slots.map refillSlot)).2 = some (c, idx)) :
    ∀ (j : Nat) (s' : Slot τ),
    (nullIdx idx (scanAux key dedup asc none 0 (slots.map refillSlot)).1)[j]? = some s' →
    ∃ s, (slots.map refillSlot)[j]? = some s ∧
      ∀ y ∈ slotContents s', y ∈ slotContents s := by
  obtain ⟨rc, hS₂idx, hS₁idx⟩ := mergeStep_loc hscan
  intro j s' hjs
  by_cases hj : j = idx
  · subst hj
    rw [nullIdx_get_eq hS₂idx] at hjs
    cases hjs
    refine ⟨(some c, rc), hS₁idx, ?_⟩
    intro y hy
    rw [show slotContents ((some c, rc) : Slot τ) = c :: rc from rfl]
    exact List.mem_cons_of_mem c (by simpa [slotContents] using hy)
  · rw [nullIdx_get_ne idx _ j hj] at hjs
    obtain ⟨s₁, hs₁, hrest, hhead⟩ :=
      scanAux_slots_shape key dedup asc (slots.map refillSlot) none 0 j s' hjs
    rcases s' with ⟨h₂, r₂⟩
    rcases s₁ with ⟨h₁, r₁⟩
    dsimp only at hrest hhead
    subst hrest
    rcases hhead with hh | hh
    · subst hh
      exact ⟨(h₂, r₁), hs₁, fun y hy => hy⟩
    · subst hh
      refine ⟨(h₁, r₁), hs₁, ?_⟩
      intro y hy
      unfold slotContents at hy ⊢
      exact List.mem_append_right _ (by simpa using hy)

/-- E2: for every key other than the emitted one, the earliest-record map is
untouched by the step. -/
theorem mergeStep_preserve {key : τ → String} {asc : Bool}
    {slots : List (Slot τ)} (hgood : GoodSlots key asc slots) {c : τ} {idx : Nat}
    (hscan : (scanAux key true asc none 0 (slots.map refillSlot)).2 = some (c, idx)) :
    ∀ k, k ≠ key c →
    firstRecordIn key k
        (slotsContents
          (nullIdx idx (scanAux key true asc none 0 (slots.map refillSlot)).1)) =
      firstRecordIn key k (slotsContents slots) := by
  obtain ⟨rc, hS₂idx, hS₁idx⟩ := mergeStep_loc hscan
  have hgood₁ := goodSlots_refill hgood
  intro k hk
  conv_rhs => rw [← slotsContents_refill]
  cases hfr : firstRecordIn key k (slotsContents (slots.map refillSlot)) with
  | none =>
    rw [firstRecordIn_none_iff] at hfr ⊢
    intro l' hl'
    unfold slotsContents at hl'
    rw [List.mem_iff_getElem?] at hl'
    obtain ⟨j, hj⟩ := hl'
    rw [List.getElem?_map] at hj
    cases hjs : (nullIdx idx (scanAux key true asc none 0 (slots.map refillSlot)).1)[j]? with
    | none => rw [hjs] at hj; cases hj
    | some s' =>
      rw [hjs] at hj
      simp only [Option.map_some', Option.some.injEq] at hj
      subst hj
      obtain ⟨s, hs, hsub⟩ := mergeStep_subset hscan j s' hjs
      rw [findByKey_none_iff]
      intro y hy
      have hyS : y ∈ slotContents s := hsub y hy
      have : findByKey key k (slotContents s) = none := by
        refine hfr _ ?_
        unfold slotsContents
        rw [List.mem_map]
        refine ⟨s, ?_, rfl⟩
        rw [List.mem_iff_getElem?]
        exact ⟨j, hs⟩
      exact findByKey_none_iff.mp this y hyS
  | some x =>
    rw [firstRecordIn_eq_some_iff] at hfr
    obtain ⟨e, l, he, hfind, hmin⟩ := hfr
    unfold slotsContents at he
    rw [List.getElem?_map] at he
    cases hse : (slots.map refillSlot)[e]? with
    | none => rw [hse] at he; cases he
    | some sₑ =>
    rw [hse] at he
    simp only [Option.map_some', Option.some.injEq] at he
    subst he
    have hlen : e < (nullIdx idx (scanAux key true asc none 0 (slots.map refillSlot)).1).length := by
      rw [nullIdx_length, scanAux_length]
      exact getElem?_lt_length hse
    obtain ⟨s'ₑ, hs'ₑ⟩ := length_getElem?_isSome hlen
    rw [firstRecordIn_eq_some_iff]
    refine ⟨e, slotContents s'ₑ, ?_, ?_, ?_⟩
    · unfold slotsContents
      rw [List.getElem?_map, hs'ₑ]
      rfl
    · -- the record for k at slot e is untouched
      by_cases he_idx : e = idx
      · subst he_idx
        rw [hse] at hS₁idx
        cases hS₁idx
        rw [nullIdx_get_eq hS₂idx] at hs'ₑ
        cases hs'ₑ
        rw [show slotContents ((some c, rc) : Slot τ) = c :: rc from rfl] at hfind
        rw [findByKey_cons_of_ne (Ne.symm hk)] at hfind
        exact hfind
      · rw [nullIdx_get_ne idx _ e he_idx] at hs'ₑ
        obtain ⟨s₁, hs₁, hrest, hhead⟩ :=
          scanAux_slots_shape key true asc (slots.map refillSlot) none 0 e s'ₑ hs'ₑ
        rw [hse] at hs₁
        cases hs₁
        rcases s'ₑ with ⟨h₂, r₂⟩
        rcases sₑ with ⟨h₁, r₁⟩
        dsimp only at hrest hhead
        subst hrest
        rcases hhead with hh | hh
        · subst hh
          exact hfind
        · subst hh
          rcases h₁ with _ | w
          · exact hfind
          · rw [show slotContents ((some w, r₁) : Slot τ) = w :: r₁ from rfl] at hfind
            by_cases hkw : key w = k
            · -- the dropped head itself carried k: impossible, an earlier
              -- surviving head with key k would contradict minimality of e
              exfalso
              rcases scanAux_dropped key true asc (slots.map refillSlot) none 0 e w r₁
                  hse (by rw [hs'ₑ]) with ⟨q, hq, -⟩ | ⟨j'', hj'', y', r'', hy'', hk''⟩
              · cases hq
              · have hS₁j'' := scanAux_heads_origin key true asc (slots.map refillSlot)
                  none 0 j'' y' r'' hy''
                have := hmin j'' (by omega) (slotContents (some y', r''))
                  (by
                    unfold slotsContents
                    rw [List.getElem?_map, hS₁j'']
                    rfl)
                rw [show slotContents ((some y', r'') : Slot τ) = y' :: r'' from rfl] at this
                rw [findByKey_none_iff] at this
                exact this y' (List.mem_cons_self ..) (by rw [hk'', hkw])
            · rw [findByKey_cons_of_ne hkw] at hfind
              exact hfind
    · intro j' hj' l' hl'
      unfold slotsContents at hl'
      rw [List.getElem?_map] at hl'
      cases hjs : (nullIdx idx (scanAux key true asc none 0 (slots.map refillSlot)).1)[j']? with
      | none => rw [hjs] at hl'; cases hl'
      | some s' =>
        rw [hjs] at hl'
        simp only [Option.map_some', Option.some.injEq] at hl'
        subst hl'
        obtain ⟨s, hs, hsub⟩ := mergeStep_subset hscan j' s' hjs
        have := hmin j' hj' (slotContents s)
          (by
            unfold slotsContents
            rw [List.getElem?_map, hs]
            rfl)
        rw [findByKey_none_iff] at this ⊢
        exact fun y hy => this y (hsub y hy)

/-- E6: each emission strictly decreases the measure. -/
theorem mergeStep_measure {key : τ → String} {asc dedup : Bool}
    {slots : List (Slot τ)} {c : τ} {idx : Nat}
    (hscan : (scanAux key dedup asc none 0 (slots.map refillSlot)).2 = some (c, idx)) :
    slotsMeasure
        (nullIdx idx (scanAux key dedup asc none 0 (slots.map refillSlot)).1) <
      slotsMeasure slots := by
  obtain ⟨rc, hS₂idx, hS₁idx⟩ := mergeStep_loc hscan
  have h1 := refill_measure slots
  have h2 := scanAux_measure key dedup asc (slots.map refillSlot) none 0
  have h3 := nullIdx_measure hS₂idx
  omega

theorem hasKeySlots_iff_isSome {key : τ → String} {k : String}
    {slots : List (Slot τ)} :
    hasKeySlots key k slots ↔ (firstRecordIn key k (slotsContents slots)).isSome := by
  rw [firstRecordIn_isSome_iff]
  constructor
  · rintro ⟨s, hs, x, hx, hk⟩
    exact ⟨slotContents s, by
      unfold slotsContents
      rw [List.mem_map]
      exact ⟨s, hs, rfl⟩, x, hx, hk⟩
  · rintro ⟨l, hl, x, hx, hk⟩
    unfold slotsContents at hl
    rw [List.mem_map] at hl
    obtain ⟨s, hs, rfl⟩ := hl
    exact ⟨s, hs, x, hx, hk⟩

/-- E7: the step removes exactly the emitted key from the key set. -/
theorem mergeStep_hasKey {key : τ → String} {asc : Bool}
    {slots : List (Slot τ)} (hgood : GoodSlots key asc slots) {c : τ} {idx : Nat}
    (hscan : (scanAux key true asc none 0 (slots.map refillSlot)).2 = some (c, idx)) :
    ∀ k, hasKeySlots key k
        (nullIdx idx (scanAux key true asc none 0 (slots.map refillSlot)).1) ↔
      (hasKeySlots key k slots ∧ k ≠ key c) := by
  intro k
  by_cases hk : k = key c
  · subst hk
    constructor
    · rintro ⟨s, hs, y, hy, hky⟩
      rw [List.mem_iff_getElem?] at hs
      obtain ⟨j, hjs⟩ := hs
      exact absurd hky (mergeStep_key_gone hgood hscan j s hjs y hy)
    · rintro ⟨-, hne⟩
      exact absurd rfl hne
  · rw [hasKeySlots_iff_isSome, hasKeySlots_iff_isSome,
      mergeStep_preserve hgood hscan k hk]
    constructor
    · intro h
      exact ⟨h, hk⟩
    · rintro ⟨h, -⟩
      exact h

/-- When the scan finds no candidate the whole state is exhausted. -/
theorem mergeScan_terminal {key : τ → String} {asc dedup : Bool}
    {slots : List (Slot τ)}
    (hnone : (scanAux key dedup asc none 0 (slots.map refillSlot)).2 = none) :
    ∀ k, ¬ hasKeySlots key k slots := by
  obtain ⟨-, hall, -⟩ := scanAux_none key dedup asc (slots.map refillSlot) none 0 hnone
  rintro k ⟨s, hs, y, hy, hk⟩
  have hmem : refillSlot s ∈ slots.map refillSlot := List.mem_map_of_mem _ hs
  have hnil : refillSlot s = (none, []) := refillSlot_none (hall _ hmem)
  have : slotContents s = [] := by
    rw [← refillSlot_contents, hnil]
    rfl
  rw [this] at hy
  exact absurd hy (List.not_mem_nil y)

theorem firstRecordIn_slots_index {key : τ → String} {k : String}
    {X : List (Slot τ)} {x : τ}
    (h : firstRecordIn key k (slotsContents X) = some x) :
    ∃ (j : Nat) (s : Slot τ), X[j]? = some s ∧ x ∈ slotContents s ∧ key x = k := by
  rw [firstRecordIn_eq_some_iff] at h
  obtain ⟨j, l, hj, hfind, -⟩ := h
  unfold slotsContents at hj
  rw [List.getElem?_map] at hj
  cases hs : X[j]? with
  | none => rw [hs] at hj; cases hj
  | some s =>
    rw [hs] at hj
    simp only [Option.map_some', Option.some.injEq] at hj
    subst hj
    obtain ⟨hmem, hkey⟩ := findByKey_some hfind
    exact ⟨j, s, hs, hmem, hkey⟩

/-- Correctness of the dedup k-way merge loop: with strictly sorted slots and
enough fuel, the loop emits, for each key present in the state, the record of
that key in the earliest slot holding it — exactly once per key — in strictly
sorted key order. -/
theorem mergeLoop_dedup (key : τ → String) (asc : Bool) :
    ∀ (fuel : Nat) (slots : List (Slot τ)),
    GoodSlots key asc slots → slotsMeasure slots < fuel →
    (∀ c ∈ mergeLoop key true asc fuel slots,
        firstRecordIn key (key c) (slotsContents slots) = some c)
    ∧ (∀ k, hasKeySlots key k slots ↔
        k ∈ (mergeLoop key true asc fuel slots).map key)
    ∧ List.Chain' (fun a b => dirLT asc (key a) (key b))
        (mergeLoop key true asc fuel slots)
  | 0, slots => by
    intro _ h
    omega
  | fuel + 1, slots => by
    intro hgood hfuel
    rw [mergeLoop]
    cases hscan : (scanAux key true asc none 0 (slots.map refillSlot)).2 with
    | none =>
      have hpair : scanAux key true asc none 0 (slots.map refillSlot) =
          ((scanAux key true asc none 0 (slots.map refillSlot)).1, none) :=
        Prod.ext rfl hscan
      rw [hpair]
      dsimp only
      refine ⟨fun c hc => absurd hc (List.not_mem_nil c), ?_, List.chain'_nil⟩
      intro k
      simp only [List.map_nil]
      constructor
      · intro h
        exact absurd h (mergeScan_terminal hscan k)
      · intro h
        exact absurd h (List.not_mem_nil k)
    | some p =>
      rcases p with ⟨c, idx⟩
      have hpair : scanAux key true asc none 0 (slots.map refillSlot) =
          ((scanAux key true asc none 0 (slots.map refillSlot)).1, some (c, idx)) :=
        Prod.ext rfl hscan
      rw [hpair]
      dsimp only
      have hgoodN := mergeStep_good hgood hscan
      have hmeas := mergeStep_measure hscan
      obtain ⟨ih1, ih2, ih3⟩ := mergeLoop_dedup key asc fuel
        (nullIdx idx (scanAux key true asc none 0 (slots.map refillSlot)).1)
        hgoodN (by omega)
      refine ⟨?_, ?_, ?_⟩
      · intro c' hc'
        rcases List.mem_cons.mp hc' with rfl | hc'
        · exact mergeStep_emitted_first hgood hscan
        · have hfr := ih1 c' hc'
          have hkne : key c' ≠ key c := by
            have hhas : hasKeySlots key (key c')
                (nullIdx idx (scanAux key true asc none 0 (slots.map refillSlot)).1) := by
              rw [hasKeySlots_iff_isSome, hfr]
              rfl
            exact ((mergeStep_hasKey hgood hscan (key c')).mp hhas).2
          rw [← mergeStep_preserve hgood hscan (key c') hkne]
          exact hfr
      · intro k
        rw [List.map_cons, List.mem_cons]
        by_cases hk : k = key c
        · subst hk
          constructor
          · intro _
            exact Or.inl rfl
          · intro _
            rw [hasKeySlots_iff_isSome, mergeStep_emitted_first hgood hscan]
            rfl
        · rw [← ih2 k, mergeStep_hasKey hgood hscan k]
          constructor
          · intro h
            exact Or.inr ⟨h, hk⟩
          · rintro (rfl | ⟨h, -⟩)
            · exact absurd rfl hk
            · exact h
      · rw [List.chain'_cons']
        refine ⟨?_, ih3⟩
        intro b hb
        have hbmem : b ∈ mergeLoop key true asc fuel
            (nullIdx idx (scanAux key true asc none 0 (slots.map refillSlot)).1) :=
          List.mem_of_mem_head? hb
        obtain ⟨j, s, hjs, hmem, -⟩ := firstRecordIn_slots_index (ih1 b hbmem)
        exact mergeStep_greater hgood hscan j s hjs b hmem

/-! #### Properties of the split phase -/

theorem firstRecordIn_concat (key : τ → String) (k : String)
    (L : List (List τ)) (l : List τ) :
    firstRecordIn key k (L ++ [l]) =
      match firstRecordIn key k L with
      | some x => some x
      | none => findByKey key k l := by
  induction L with
  | nil =>
    rw [List.nil_append, firstRecordIn, firstRecordIn]
    cases findByKey key k l <;> rfl
  | cons c L ih =>
    rw [List.cons_append, firstRecordIn, firstRecordIn]
    cases findByKey key k c
    · exact ih
    · rfl

theorem findByKey_concat (key : τ → String) (k : String) (l : List τ) (e : τ) :
    findByKey key k (l ++ [e]) =
      match findByKey key k l with
      | some x => some x
      | none => if key e == k then some e else none := by
  unfold findByKey
  rw [List.find?_append]
  cases l.find? (fun x => key x == k)
  · rw [Option.none_or]
    cases he : (key e == k) <;> simp [List.find?, he]
  · rfl

/-- Two lists that are permutations of each other with duplicate-free keys
agree on keyed lookup. -/
theorem findByKey_perm {key : τ → String} {k : String} {l l' : List τ}
    (hperm : l.Perm l') (hnd : (l.map key).Nodup) :
    findByKey key k l = findByKey key k l' := by
  cases h : findByKey key k l with
  | some x =>
    obtain ⟨hmem, hkey⟩ := findByKey_some h
    cases h' : findByKey key k l' with
    | none =>
      rw [findByKey_none_iff] at h'
      exact absurd hkey (h' x (hperm.mem_iff.mp hmem))
    | some y =>
      obtain ⟨hmem', hkey'⟩ := findByKey_some h'
      have : x = y :=
        List.inj_on_of_nodup_map hnd hmem (hperm.mem_iff.mpr hmem')
          (hkey.trans hkey'.symm)
      rw [this]
  | none =>
    rw [findByKey_none_iff] at h
    cases h' : findByKey key k l' with
    | none => rfl
    | some y =>
      obtain ⟨hmem', hkey'⟩ := findByKey_some h'
      exact absurd hkey' (h y (hperm.mem_iff.mpr hmem'))

theorem sortAndSaveBuffer_perm (asc : Bool) (buf : List (SortRecord α)) :
    (sortAndSaveBuffer asc buf).Perm buf :=
  List.perm_insertionSort _ buf

/-- Sorting a buffer with duplicate-free keys yields a strictly key-sorted run. -/
theorem sortAndSaveBuffer_sorted {asc : Bool} {buf : List (SortRecord α)}
    (hnd : (buf.map SortRecord.key).Nodup) :
    List.Chain' (fun a b : SortRecord α => dirLT asc a.key b.key)
      (sortAndSaveBuffer asc buf) := by
  haveI : IsTrans (SortRecord α) (fun a b => dirLE asc a.key b.key) :=
    ⟨fun _ _ _ h₁ h₂ => dirLE_trans h₁ h₂⟩
  haveI : IsTotal (SortRecord α) (fun a b => dirLE asc a.key b.key) :=
    ⟨fun a b => dirLE_total asc a.key b.key⟩
  haveI : IsTrans (SortRecord α) (fun a b => dirLT asc a.key b.key) :=
    ⟨fun _ _ _ h₁ h₂ => dirLT_trans h₁ h₂⟩
  have hsorted : List.Pairwise (fun a b : SortRecord α => dirLE asc a.key b.key)
      (sortAndSaveBuffer asc buf) :=
    List.sorted_insertionSort _ buf
  have hnd' : ((sortAndSaveBuffer asc buf).map SortRecord.key).Nodup := by
    have := (sortAndSaveBuffer_perm asc buf).map SortRecord.key
    exact this.nodup_iff.mpr hnd
  have hne : List.Pairwise (fun a b : SortRecord α => a.key ≠ b.key)
      (sortAndSaveBuffer asc buf) :=
    List.pairwise_map.mp hnd'
  rw [List.chain'_iff_pairwise]
  exact (hsorted.and hne).imp (fun h => dirLT_of_dirLE_of_ne h.1 h.2)

theorem find?_singleton_none {keyFn : α → String} {r : α} {k : String}
    (hk : keyFn r ≠ k) :
    List.find? (fun x => keyFn x == k) [r] = none := by
  have hb : (keyFn r == k) = false := beq_eq_false_iff_ne.mpr hk
  rw [List.find?_cons, hb]
  rfl

theorem find?_singleton_self (keyFn : α → String) (r : α) :
    List.find? (fun x => keyFn x == keyFn r) [r] = some r := by
  have hb : (keyFn r == keyFn r) = true := beq_self_eq_true _
  rw [List.find?_cons, hb]

/-- The split-loop invariant, pushed through the fold: buffers keep
duplicate-free keys, finished runs are strictly sorted, and the earliest
record per key across (runs, then buffer) is the first record with that key
in the processed input. -/
theorem splitFold_invariant (B : Nat) (keyFn : α → String) (asc : Bool) :
    ∀ (input processed : List α) (st : SplitState α),
    (st.buffer.map SortRecord.key).Nodup →
    (∀ run ∈ st.runs,
      List.Chain' (fun a b : SortRecord α => dirLT asc a.key b.key) run) →
    (∀ k, firstRecordIn SortRecord.key k (st.runs ++ [st.buffer]) =
      (processed.find? (fun r => keyFn r == k)).map
        (fun r => (⟨k, r⟩ : SortRecord α))) →
    ((((input.foldl (splitStep B keyFn asc) st).buffer.map SortRecord.key).Nodup)
      ∧ (∀ run ∈ (input.foldl (splitStep B keyFn asc) st).runs,
          List.Chain' (fun a b : SortRecord α => dirLT asc a.key b.key) run)
      ∧ (∀ k, firstRecordIn SortRecord.key k
            ((input.foldl (splitStep B keyFn asc) st).runs ++
              [(input.foldl (splitStep B keyFn asc) st).buffer]) =
          ((processed ++ input).find? (fun r => keyFn r == k)).map
            (fun r => (⟨k, r⟩ : SortRecord α))))
  | [], processed, st => by
    intro h1 h2 h3
    rw [List.foldl_nil]
    refine ⟨h1, h2, ?_⟩
    intro k
    rw [List.append_nil]
    exact h3 k
  | r :: input, processed, st => by
    intro h1 h2 h3
    rw [List.foldl_cons]
    have key_step : ∀ k, firstRecordIn SortRecord.key k
        ((splitStep B keyFn asc st r).runs ++ [(splitStep B keyFn asc st r).buffer]) =
        ((processed ++ [r]).find? (fun x => keyFn x == k)).map
          (fun x => (⟨k, x⟩ : SortRecord α)) := by
      intro k
      unfold splitStep
      by_cases hmem : keyFn r ∈ st.buffer.map SortRecord.key
      · rw [if_pos hmem]
        rw [h3 k, List.find?_append]
        by_cases hk : keyFn r = k
        · subst hk
          -- the key is already buffered, hence already seen
          have hsome : (processed.find? (fun x => keyFn x == keyFn r)).isSome := by
            by_contra hnone
            rw [Option.not_isSome_iff_eq_none] at hnone
            have := h3 (keyFn r)
            rw [hnone] at this
            simp only [Option.map_none'] at this
            rw [firstRecordIn_none_iff] at this
            have hlast := this st.buffer (by
              rw [List.mem_append]
              exact Or.inr (List.mem_cons_self ..))
            rw [findByKey_none_iff] at hlast
            rw [List.mem_map] at hmem
            obtain ⟨e, he, hek⟩ := hmem
            exact hlast e he hek
          obtain ⟨r₀, hr₀⟩ := Option.isSome_iff_exists.mp hsome
          rw [hr₀, Option.or_some]
        · rw [find?_singleton_none hk, Option.or_none]
      · rw [if_neg hmem]
        dsimp only
        have hbufkey := findByKey_concat SortRecord.key k st.buffer ⟨keyFn r, r⟩
        have hold := h3 k
        rw [firstRecordIn_concat] at hold
        have hnewfold : firstRecordIn SortRecord.key k
            (st.runs ++ [st.buffer ++ [⟨keyFn r, r⟩]]) =
            ((processed ++ [r]).find? (fun x => keyFn x == k)).map
              (fun x => (⟨k, x⟩ : SortRecord α)) := by
          rw [firstRecordIn_concat, hbufkey, List.find?_append]
          cases hrun : firstRecordIn SortRecord.key k st.runs with
          | some x =>
            rw [hrun] at hold
            dsimp only at hold ⊢
            cases hp : processed.find? (fun x => keyFn x == k) with
            | none =>
              rw [hp] at hold
              cases hold
            | some r₀ =>
              rw [hp] at hold
              rw [Option.or_some]
              exact hold
          | none =>
            rw [hrun] at hold
            dsimp only at hold ⊢
            cases hbuf : findByKey SortRecord.key k st.buffer with
            | some x =>
              rw [hbuf] at hold
              dsimp only
              cases hp : processed.find? (fun x => keyFn x == k) with
              | none =>
                rw [hp] at hold
                cases hold
              | some r₀ =>
                rw [hp] at hold
                rw [Option.or_some]
                exact hold
            | none =>
              rw [hbuf] at hold
              dsimp only
              cases hp : processed.find? (fun x => keyFn x == k) with
              | none =>
                rw [Option.none_or]
                by_cases hk : keyFn r = k
                · subst hk
                  rw [find?_singleton_self keyFn r]
                  have hb : (keyFn r == keyFn r) = true := beq_self_eq_true _
                  rw [hb]
                  rfl
                · rw [find?_singleton_none hk]
                  have hb : (keyFn r == k) = false := beq_eq_false_iff_ne.mpr hk
                  rw [hb]
                  rfl
              | some r₀ =>
                rw [hp] at hold
                cases hold
        have hnd' : ((st.buffer ++ [(⟨keyFn r, r⟩ : SortRecord α)]).map SortRecord.key).Nodup := by
          rw [List.map_append]
          simp only [List.map_cons, List.map_nil]
          rw [List.nodup_append]
          refine ⟨h1, List.nodup_singleton _, ?_⟩
          intro a ha hb
          rw [List.mem_singleton] at hb
          subst hb
          exact hmem ha
        by_cases hflush : (st.buffer ++ [(⟨keyFn r, r⟩ : SortRecord α)]).length = B
        · rw [if_pos hflush]
          dsimp only
          have h₁ : firstRecordIn SortRecord.key k
              ((st.runs ++ [sortAndSaveBuffer asc (st.buffer ++ [(⟨keyFn r, r⟩ : SortRecord α)])]) ++
                [([] : List (SortRecord α))]) =
              firstRecordIn SortRecord.key k
                (st.runs ++ [sortAndSaveBuffer asc (st.buffer ++ [(⟨keyFn r, r⟩ : SortRecord α)])]) := by
            rw [firstRecordIn_concat]
            cases hfr : firstRecordIn SortRecord.key k
                (st.runs ++ [sortAndSaveBuffer asc (st.buffer ++ [(⟨keyFn r, r⟩ : SortRecord α)])]) with
            | some x => rfl
            | none => rfl
          have h₂ : firstRecordIn SortRecord.key k
              (st.runs ++ [sortAndSaveBuffer asc (st.buffer ++ [(⟨keyFn r, r⟩ : SortRecord α)])]) =
              firstRecordIn SortRecord.key k
                (st.runs ++ [st.buffer ++ [(⟨keyFn r, r⟩ : SortRecord α)]]) := by
            rw [firstRecordIn_concat, firstRecordIn_concat]
            cases hfr : firstRecordIn SortRecord.key k st.runs with
            | some x => rfl
            | none =>
              dsimp only
              exact findByKey_perm (sortAndSaveBuffer_perm asc _) (by
                have := (sortAndSaveBuffer_perm asc
                  (st.buffer ++ [(⟨keyFn r, r⟩ : SortRecord α)])).map SortRecord.key
                exact this.nodup_iff.mpr hnd')
          rw [h₁, h₂]
          exact hnewfold
        · rw [if_neg hflush]
          dsimp only
          exact hnewfold
    have hbuf_step : ((splitStep B keyFn asc st r).buffer.map SortRecord.key).Nodup := by
      unfold splitStep
      by_cases hmem : keyFn r ∈ st.buffer.map SortRecord.key
      · rw [if_pos hmem]
        exact h1
      · rw [if_neg hmem]
        dsimp only
        by_cases hflush : (st.buffer ++ [(⟨keyFn r, r⟩ : SortRecord α)]).length = B
        · rw [if_pos hflush]
          exact List.nodup_nil
        · rw [if_neg hflush]
          rw [List.map_append]
          simp only [List.map_cons, List.map_nil]
          rw [List.nodup_append]
          refine ⟨h1, List.nodup_singleton _, ?_⟩
          intro a ha hb
          rw [List.mem_singleton] at hb
          subst hb
          exact hmem ha
    have hruns_step : ∀ run ∈ (splitStep B keyFn asc st r).runs,
        List.Chain' (fun a b : SortRecord α => dirLT asc a.key b.key) run := by
      unfold splitStep
      by_cases hmem : keyFn r ∈ st.buffer.map SortRecord.key
      · rw [if_pos hmem]
        exact h2
      · rw [if_neg hmem]
        dsimp only
        by_cases hflush : (st.buffer ++ [(⟨keyFn r, r⟩ : SortRecord α)]).length = B
        · rw [if_pos hflush]
          intro run hrun
          rw [List.mem_append] at hrun
          rcases hrun with hrun | hrun
          · exact h2 run hrun
          · rw [List.mem_singleton] at hrun
            subst hrun
            refine sortAndSaveBuffer_sorted ?_
            rw [List.map_append]
            simp only [List.map_cons, List.map_nil]
            rw [List.nodup_append]
            refine ⟨h1, List.nodup_singleton _, ?_⟩
            intro a ha hb
            rw [List.mem_singleton] at hb
            subst hb
            exact hmem ha
        · rw [if_neg hflush]
          exact h2
    have := splitFold_invariant B keyFn asc input (processed ++ [r])
      (splitStep B keyFn asc st r) hbuf_step hruns_step key_step
    rw [List.append_assoc] at this
    exact this

/-! #### The split phase end-to-end -/

theorem splitChunks_eq (B : Nat) (keyFn : α → String) (asc : Bool)
    (input : List α) :
    splitChunks B keyFn asc input =
      (input.foldl (splitStep B keyFn asc) ⟨[], []⟩).runs ++
        (if (input.foldl (splitStep B keyFn asc) ⟨[], []⟩).buffer.isEmpty then []
          else [sortAndSaveBuffer asc
            (input.foldl (splitStep B keyFn asc) ⟨[], []⟩).buffer]) := rfl

/-- Every run produced by the split phase is strictly key-sorted, and the
earliest record per key across the runs is the first record with that key in
the input. -/
theorem splitChunks_props (B : Nat) (keyFn : α → String) (asc : Bool)
    (input : List α) :
    (∀ run ∈ splitChunks B keyFn asc input,
      List.Chain' (fun a b : SortRecord α => dirLT asc a.key b.key) run)
    ∧ (∀ k, firstRecordIn SortRecord.key k (splitChunks B keyFn asc input) =
        (input.find? (fun r => keyFn r == k)).map
          (fun r => (⟨k, r⟩ : SortRecord α))) := by
  obtain ⟨hb, hr, hf⟩ := splitFold_invariant B keyFn asc input []
    (⟨[], []⟩ : SplitState α) List.nodup_nil
    (fun run h => absurd h (List.not_mem_nil run)) (fun k => rfl)
  constructor
  · intro run hrun
    rw [splitChunks_eq, List.mem_append] at hrun
    rcases hrun with h | h
    · exact hr run h
    · by_cases hemp :
        (input.foldl (splitStep B keyFn asc) (⟨[], []⟩ : SplitState α)).buffer.isEmpty
      · rw [if_pos hemp] at h
        cases h
      · rw [if_neg hemp, List.mem_singleton] at h
        subst h
        exact sortAndSaveBuffer_sorted hb
  · intro k
    rw [splitChunks_eq]
    have h3k := hf k
    by_cases hemp :
        (input.foldl (splitStep B keyFn asc) (⟨[], []⟩ : SplitState α)).buffer.isEmpty
    · rw [if_pos hemp, List.append_nil]
      have hbe : (input.foldl (splitStep B keyFn asc)
          (⟨[], []⟩ : SplitState α)).buffer = [] := List.isEmpty_iff.mp hemp
      rw [hbe, firstRecordIn_concat] at h3k
      cases hfr : firstRecordIn SortRecord.key k
          (input.foldl (splitStep B keyFn asc) (⟨[], []⟩ : SplitState α)).runs with
      | some x =>
        rw [hfr] at h3k
        exact h3k
      | none =>
        rw [hfr] at h3k
        exact h3k
    · rw [if_neg hemp]
      have h2 : firstRecordIn SortRecord.key k
          ((input.foldl (splitStep B keyFn asc) (⟨[], []⟩ : SplitState α)).runs ++
            [sortAndSaveBuffer asc
              (input.foldl (splitStep B keyFn asc) (⟨[], []⟩ : SplitState α)).buffer]) =
          firstRecordIn SortRecord.key k
            ((input.foldl (splitStep B keyFn asc) (⟨[], []⟩ : SplitState α)).runs ++
              [(input.foldl (splitStep B keyFn asc) (⟨[], []⟩ : SplitState α)).buffer]) := by
        rw [firstRecordIn_concat, firstRecordIn_concat]
        cases hfr : firstRecordIn SortRecord.key k
            (input.foldl (splitStep B keyFn asc) (⟨[], []⟩ : SplitState α)).runs with
        | some x => rfl
        | none =>
          dsimp only
          refine findByKey_perm (sortAndSaveBuffer_perm asc _) ?_
          have hp := (sortAndSaveBuffer_perm asc
            (input.foldl (splitStep B keyFn asc) (⟨[], []⟩ : SplitState α)).buffer).map
            SortRecord.key
          exact hp.nodup_iff.mpr hb
      rw [h2]
      exact h3k

/-! #### The dedup merge over plain runs -/

theorem slotsContents_init (runs : List (List τ)) :
    slotsContents (runs.map (fun r => ((none : Option τ), r))) = runs := by
  induction runs with
  | nil => rfl
  | cons r rs ih =>
    rw [List.map_cons]
    unfold slotsContents at ih ⊢
    rw [List.map_cons, ih]
    rfl

/-- `mergeSortedReadersByCalculatedKey` over strictly key-sorted runs: the
output is strictly key-sorted and holds, for each key present in the runs,
the record of that key from the earliest run holding it. -/
theorem mergeRuns_dedup (key : τ → String) (asc : Bool) (runs : List (List τ))
    (hgood : ∀ run ∈ runs,
      List.Chain' (fun a b => dirLT asc (key a) (key b)) run) :
    (∀ c ∈ mergeRuns key true asc runs,
        firstRecordIn key (key c) runs = some c)
    ∧ (∀ k, (∃ run ∈ runs, ∃ x ∈ run, key x = k) ↔
        k ∈ (mergeRuns key true asc runs).map key)
    ∧ List.Chain' (fun a b => dirLT asc (key a) (key b))
        (mergeRuns key true asc runs) := by
  have hgood' : GoodSlots key asc (runs.map (fun r => ((none : Option τ), r))) := by
    intro s hs
    rw [List.mem_map] at hs
    obtain ⟨r, hr, hrs⟩ := hs
    subst hrs
    exact hgood r hr
  obtain ⟨h1, h2, h3⟩ := mergeLoop_dedup key asc
    (slotsMeasure (runs.map (fun r => ((none : Option τ), r))) + 1)
    (runs.map (fun r => ((none : Option τ), r))) hgood' (Nat.lt_succ_self _)
  have hmr : mergeRuns key true asc runs = mergeLoop key true asc
      (slotsMeasure (runs.map (fun r => ((none : Option τ), r))) + 1)
      (runs.map (fun r => ((none : Option τ), r))) := rfl
  rw [hmr]
  refine ⟨?_, ?_, h3⟩
  · intro c hc
    have h := h1 c hc
    rwa [slotsContents_init] at h
  · intro k
    rw [← h2 k]
    constructor
    · rintro ⟨run, hrun, x, hx, hk⟩
      exact ⟨(none, run), List.mem_map.mpr ⟨run, hrun, rfl⟩, x, hx, hk⟩
    · rintro ⟨s, hs, x, hx, hk⟩
      rw [List.mem_map] at hs
      obtain ⟨r, hr, hrs⟩ := hs
      subst hrs
      exact ⟨r, hr, x, hx, hk⟩

/-! #### First occurrences of the input's keys -/

/-- The fold invariant of `firstOccurrences`: distinct keys, every kept record
is its key's first occurrence among the processed records, and the kept keys
are exactly the processed keys. -/
theorem firstOcc_fold (keyFn : α → String) :
    ∀ (input processed acc : List α),
    (acc.map keyFn).Nodup →
    (∀ x ∈ acc, processed.find? (fun r => keyFn r == keyFn x) = some x) →
    (∀ k, k ∈ acc.map keyFn ↔ ∃ r ∈ processed, keyFn r = k) →
    (((input.foldl
        (fun acc r => if keyFn r ∈ acc.map keyFn then acc else acc ++ [r])
        acc).map keyFn).Nodup)
    ∧ (∀ x ∈ input.foldl
          (fun acc r => if keyFn r ∈ acc.map keyFn then acc else acc ++ [r]) acc,
        (processed ++ input).find? (fun r => keyFn r == keyFn x) = some x)
    ∧ (∀ k, k ∈ (input.foldl
          (fun acc r => if keyFn r ∈ acc.map keyFn then acc else acc ++ [r])
          acc).map keyFn ↔ ∃ r ∈ processed ++ input, keyFn r = k)
  | [], processed, acc => by
    intro h1 h2 h3
    rw [List.foldl_nil]
    refine ⟨h1, ?_, ?_⟩
    · intro x hx
      rw [List.append_nil]
      exact h2 x hx
    · intro k
      rw [List.append_nil]
      exact h3 k
  | r :: input, processed, acc => by
    intro h1 h2 h3
    rw [List.foldl_cons]
    by_cases hmem : keyFn r ∈ acc.map keyFn
    · rw [if_pos hmem]
      have h2' : ∀ x ∈ acc,
          (processed ++ [r]).find? (fun q => keyFn q == keyFn x) = some x := by
        intro x hx
        rw [List.find?_append, h2 x hx, Option.or_some]
      have h3' : ∀ k, k ∈ acc.map keyFn ↔ ∃ q ∈ processed ++ [r], keyFn q = k := by
        intro k
        constructor
        · intro hk
          obtain ⟨q, hq, hkq⟩ := (h3 k).mp hk
          exact ⟨q, List.mem_append.mpr (Or.inl hq), hkq⟩
        · rintro ⟨q, hq, hkq⟩
          rcases List.mem_append.mp hq with h | h
          · exact (h3 k).mpr ⟨q, h, hkq⟩
          · rw [List.mem_singleton] at h
            subst h
            subst hkq
            exact hmem
      have hrec := firstOcc_fold keyFn input (processed ++ [r]) acc h1 h2' h3'
      rw [List.append_assoc] at hrec
      exact hrec
    · rw [if_neg hmem]
      have h1' : ((acc ++ [r]).map keyFn).Nodup := by
        rw [List.map_append]
        simp only [List.map_cons, List.map_nil]
        rw [List.nodup_append]
        refine ⟨h1, List.nodup_singleton _, ?_⟩
        intro a ha hb
        rw [List.mem_singleton] at hb
        subst hb
        exact hmem ha
      have hfindp : processed.find? (fun q => keyFn q == keyFn r) = none := by
        rw [List.find?_eq_none]
        intro q hq hbeq
        exact hmem ((h3 (keyFn r)).mpr ⟨q, hq, eq_of_beq hbeq⟩)
      have h2' : ∀ x ∈ acc ++ [r],
          (processed ++ [r]).find? (fun q => keyFn q == keyFn x) = some x := by
        intro x hx
        rcases List.mem_append.mp hx with h | h
        · rw [List.find?_append, h2 x h, Option.or_some]
        · rw [List.mem_singleton] at h
          subst h
          rw [List.find?_append, hfindp, Option.none_or]
          exact find?_singleton_self keyFn x
      have h3' : ∀ k, k ∈ (acc ++ [r]).map keyFn ↔
          ∃ q ∈ processed ++ [r], keyFn q = k := by
        intro k
        rw [List.map_append]
        simp only [List.map_cons, List.map_nil]
        rw [List.mem_append, List.mem_singleton]
        constructor
        · rintro (h | h)
          · obtain ⟨q, hq, hkq⟩ := (h3 k).mp h
            exact ⟨q, List.mem_append.mpr (Or.inl hq), hkq⟩
          · exact ⟨r, List.mem_append.mpr (Or.inr (List.mem_singleton.mpr rfl)),
              h.symm⟩
        · rintro ⟨q, hq, hkq⟩
          rcases List.mem_append.mp hq with h | h
          · exact Or.inl ((h3 k).mpr ⟨q, h, hkq⟩)
          · rw [List.mem_singleton] at h
            subst h
            exact Or.inr hkq.symm
      have hrec := firstOcc_fold keyFn input (processed ++ [r]) (acc ++ [r]) h1' h2' h3'
      rw [List.append_assoc] at hrec
      exact hrec

theorem firstOccurrences_props (keyFn : α → String) (input : List α) :
    (((firstOccurrences keyFn input).map keyFn).Nodup)
    ∧ (∀ x ∈ firstOccurrences keyFn input,
        input.find? (fun r => keyFn r == keyFn x) = some x)
    ∧ (∀ k, k ∈ (firstOccurrences keyFn input).map keyFn ↔
        ∃ r ∈ input, keyFn r = k) :=
  firstOcc_fold keyFn input [] [] List.nodup_nil
    (fun x hx => absurd hx (List.not_mem_nil x))
    (fun k => by
      constructor
      · intro h
        exact absurd h (List.not_mem_nil k)
      · rintro ⟨r, hr, -⟩
        exact absurd hr (List.not_mem_nil r))

/-- Two lists whose elements are each determined by their image under `f`
(via a common partial inverse `g`) are permutations as soon as their images
are. -/
theorem perm_of_map_perm {β : Type} (f : α → β) (g : β → Option α) :
    ∀ (l₁ l₂ : List α),
    (∀ x ∈ l₁, g (f x) = some x) → (∀ x ∈ l₂, g (f x) = some x) →
    (l₁.map f).Perm (l₂.map f) → l₁.Perm l₂
  | [], l₂, _, _, hp => by
    rw [List.map_nil] at hp
    have h₂ : l₂.map f = [] := hp.symm.eq_nil
    rw [List.map_eq_nil_iff.mp h₂]
  | x :: l₁, l₂, h1, h2, hp => by
    have hfx : f x ∈ l₂.map f := by
      rw [← hp.mem_iff, List.map_cons]
      exact List.mem_cons_self ..
    rw [List.mem_map] at hfx
    obtain ⟨y, hy, hfy⟩ := hfx
    have hxy : y = x := by
      have hgy := h2 y hy
      rw [hfy, h1 x (List.mem_cons_self ..)] at hgy
      exact (Option.some.inj hgy).symm
    subst hxy
    obtain ⟨s, t, rfl⟩ := List.append_of_mem hy
    have hp' : (l₁.map f).Perm ((s ++ t).map f) := by
      rw [List.map_append, List.map_cons] at hp
      rw [List.map_append]
      exact (hp.trans List.perm_middle).cons_inv
    have ih := perm_of_map_perm f g l₁ (s ++ t)
      (fun z hz => h1 z (List.mem_cons_of_mem _ hz))
      (fun z hz => by
        refine h2 z ?_
        rw [List.mem_append] at hz
        rw [List.mem_append, List.mem_cons]
        rcases hz with h | h
        · exact Or.inl h
        · exact Or.inr (Or.inr h))
      hp'
    exact ((ih.cons _).trans List.perm_middle.symm)

theorem dirLT_ne {asc : Bool} {a b : String} (h : dirLT asc a b) : a ≠ b := by
  intro heq
  subst heq
  exact dirLT_irrefl asc a h

/-- C1.  `SortContentReaderByCalculatedKey` sorts by the calculated key in the
requested direction and keeps exactly one record per distinct key of the
input — for each key the first record carrying it in input order: the output
record sequence is strictly key-sorted and is a permutation of the input's
first-occurrence records. -/
theorem c1_sort_by_calculated_key_totality (B : Nat) (keyFn : α → String)
    (asc : Bool) (input : List α) :
    List.Chain' (fun a b => dirLT asc (keyFn a) (keyFn b))
      (sortByCalculatedKeyList B keyFn asc input)
    ∧ (sortByCalculatedKeyList B keyFn asc input).Perm
        (firstOccurrences keyFn input) := by
  obtain ⟨hruns, hfirst⟩ := splitChunks_props B keyFn asc input
  obtain ⟨H1, H2, H3⟩ := mergeRuns_dedup SortRecord.key asc
    (splitChunks B keyFn asc input) hruns
  obtain ⟨F1, F2, F3⟩ := firstOccurrences_props keyFn input
  have hout : sortByCalculatedKeyList B keyFn asc input =
      (mergeRuns SortRecord.key true asc (splitChunks B keyFn asc input)).map
        SortRecord.record := rfl
  have hkeyrec : ∀ c ∈ mergeRuns SortRecord.key true asc
      (splitChunks B keyFn asc input),
      keyFn c.record = c.key ∧
        input.find? (fun q => keyFn q == c.key) = some c.record := by
    intro c hc
    have h := H1 c hc
    rw [hfirst c.key] at h
    cases hfind : input.find? (fun q => keyFn q == c.key) with
    | none =>
      rw [hfind] at h
      cases h
    | some q =>
      rw [hfind, Option.map_some'] at h
      have hcq := Option.some.inj h
      have hrec : c.record = q := by rw [← hcq]
      have hbeq := List.find?_some hfind
      refine ⟨?_, by rw [hrec]⟩
      rw [hrec]
      exact eq_of_beq hbeq
  constructor
  · rw [hout, List.chain'_map]
    haveI ht₁ : IsTrans (SortRecord α)
        (fun a b => dirLT asc (SortRecord.key a) (SortRecord.key b)) :=
      ⟨fun _ _ _ ha hb => dirLT_trans ha hb⟩
    haveI ht₂ : IsTrans (SortRecord α)
        (fun a b => dirLT asc (keyFn a.record) (keyFn b.record)) :=
      ⟨fun _ _ _ ha hb => dirLT_trans ha hb⟩
    rw [List.chain'_iff_pairwise] at H3 ⊢
    exact H3.imp_of_mem (fun {a b} ha hb h => by
      rw [(hkeyrec a ha).1, (hkeyrec b hb).1]
      exact h)
  · rw [hout]
    refine perm_of_map_perm keyFn (fun k => input.find? (fun q => keyFn q == k))
      _ _ ?_ ?_ ?_
    · intro x hx
      rw [List.mem_map] at hx
      obtain ⟨c, hc, hrx⟩ := hx
      subst hrx
      rw [(hkeyrec c hc).1]
      exact (hkeyrec c hc).2
    · intro x hx
      exact F2 x hx
    · have hmapeq : ((mergeRuns SortRecord.key true asc
          (splitChunks B keyFn asc input)).map SortRecord.record).map keyFn =
          (mergeRuns SortRecord.key true asc
            (splitChunks B keyFn asc input)).map SortRecord.key := by
        rw [List.map_map]
        exact List.map_congr_left (fun c hc => (hkeyrec c hc).1)
      rw [hmapeq]
      haveI ht₁ : IsTrans (SortRecord α)
          (fun a b => dirLT asc (SortRecord.key a) (SortRecord.key b)) :=
        ⟨fun _ _ _ ha hb => dirLT_trans ha hb⟩
      have hnodup : ((mergeRuns SortRecord.key true asc
          (splitChunks B keyFn asc input)).map SortRecord.key).Nodup := by
        have hpw : List.Pairwise
            (fun a b : SortRecord α => SortRecord.key a ≠ SortRecord.key b)
            (mergeRuns SortRecord.key true asc (splitChunks B keyFn asc input)) :=
          (List.chain'_iff_pairwise.mp H3).imp (fun h => dirLT_ne h)
        exact List.pairwise_map.mpr hpw
      refine (List.perm_ext_iff_of_nodup hnodup F1).mpr ?_
      intro k
      rw [← H2 k, F3 k]
      constructor
      · rintro ⟨run, hrun, x, hx, hk⟩
        have hsome : (firstRecordIn SortRecord.key k
            (splitChunks B keyFn asc input)).isSome :=
          firstRecordIn_isSome_iff.mpr ⟨run, hrun, x, hx, hk⟩
        rw [hfirst k, Option.isSome_map', List.find?_isSome] at hsome
        obtain ⟨q, hq, hbeq⟩ := hsome
        exact ⟨q, hq, eq_of_beq hbeq⟩
      · rintro ⟨q, hq, hk⟩
        have hsome : (firstRecordIn SortRecord.key k
            (splitChunks B keyFn asc input)).isSome := by
          rw [hfirst k, Option.isSome_map', List.find?_isSome]
          exact ⟨q, hq, beq_iff_eq.mpr hk⟩
        exact firstRecordIn_isSome_iff.mp hsome

/-! #### The merge without tie-dropping (`MergeSortedReaders`) -/

/-- Per-slot contents weakly key-sorted (ties allowed) in the requested
direction — the precondition `MergeSortedReaders` documents for its inputs. -/
def GoodSlotsLE (key : τ → String) (asc : Bool) (slots : List (Slot τ)) : Prop :=
  ∀ s ∈ slots, List.Chain' (fun a b => dirLE asc (key a) (key b)) (slotContents s)

theorem goodSlotsLE_refill {key : τ → String} {asc : Bool} {slots : List (Slot τ)}
    (h : GoodSlotsLE key asc slots) : GoodSlotsLE key asc (slots.map refillSlot) := by
  intro s hs
  obtain ⟨s₀, hs₀, hr⟩ := List.mem_map.mp hs
  subst hr
  rw [refillSlot_contents]
  exact h s₀ hs₀

/-- In a weakly sorted slot, the head's key comes no later than every key in
the rest. -/
theorem goodSlots_head_le {key : τ → String} {asc : Bool}
    {slots : List (Slot τ)} (hgood : GoodSlotsLE key asc slots)
    {j : Nat} {x : τ} {r : List τ} (hget : slots[j]? = some (some x, r)) :
    ∀ y ∈ r, dirLE asc (key x) (key y) := by
  intro y hy
  have hmem : ((some x, r) : Slot τ) ∈ slots := by
    rw [List.mem_iff_getElem?]
    exact ⟨j, hget⟩
  have hchain := hgood _ hmem
  rw [show slotContents ((some x, r) : Slot τ) = x :: r from rfl] at hchain
  haveI : IsTrans τ (fun a b => dirLE asc (key a) (key b)) :=
    ⟨fun _ _ _ h₁ h₂ => dirLE_trans h₁ h₂⟩
  have hpw := List.chain'_iff_pairwise.mp hchain
  exact List.rel_of_pairwise_cons hpw hy

/-- No remaining record's key precedes the emitted key (weakly sorted slots). -/
theorem mergeStep_not_lt_le {key : τ → String} {asc : Bool}
    {slots : List (Slot τ)} (hgood : GoodSlotsLE key asc slots)
    {dedup : Bool} {c : τ} {idx : Nat}
    (hscan : (scanAux key dedup asc none 0 (slots.map refillSlot)).2 = some (c, idx)) :
    ∀ (j : Nat) (s : Slot τ),
    (nullIdx idx (scanAux key dedup asc none 0 (slots.map refillSlot)).1)[j]? = some s →
    ∀ y ∈ slotContents s, ¬ dirLT asc (key y) (key c) := by
  obtain ⟨rc, hS₂idx, hS₁idx⟩ := mergeStep_loc hscan
  have hgood₁ := goodSlotsLE_refill hgood
  intro j s hjs y hy
  by_cases hj : j = idx
  · subst hj
    rw [nullIdx_get_eq hS₂idx] at hjs
    cases hjs
    have hy' : y ∈ rc := by simpa [slotContents] using hy
    exact not_dirLT_of_dirLE (goodSlots_head_le hgood₁ hS₁idx y hy')
  · rw [nullIdx_get_ne idx _ j hj] at hjs
    obtain ⟨s₁, hs₁, hrest, hhead⟩ :=
      scanAux_slots_shape key dedup asc (slots.map refillSlot) none 0 j s hjs
    rcases s with ⟨h₂, r₂⟩
    rcases s₁ with ⟨h₁, r₁⟩
    dsimp only at hrest hhead
    subst hrest
    have hofrest : ∀ z ∈ r₁, ¬ dirLT asc (key z) (key c) := by
      intro z hz
      rcases h₁ with _ | x
      · have : r₁ = [] := refill_get_none hs₁
        subst this
        exact absurd hz (List.not_mem_nil z)
      · have hxz := goodSlots_head_le hgood₁ hs₁ z hz
        have hbest := scanAux_best key dedup asc (slots.map refillSlot) none 0 (c, idx)
          hscan j x r₁ hs₁
        exact not_dirLT_trans hbest (not_dirLT_of_dirLE hxz)
    rcases hhead with hh | hh
    · subst hh
      rcases h₂ with _ | x
      · have : r₁ = [] := refill_get_none hs₁
        subst this
        exact absurd (by simpa [slotContents] using hy) (List.not_mem_nil y)
      · rcases List.mem_cons.mp (by simpa [slotContents] using hy) with rfl | hy'
        · exact scanAux_best key dedup asc (slots.map refillSlot) none 0 (c, idx)
            hscan j y r₁ hs₁
        · exact hofrest y hy'
    · subst hh
      exact hofrest y (by simpa [slotContents] using hy)

/-- The emission step keeps every slot weakly sorted. -/
theorem mergeStep_goodLE {key : τ → String} {asc dedup : Bool}
    {slots : List (Slot τ)} (hgood : GoodSlotsLE key asc slots) {c : τ} {idx : Nat}
    (hscan : (scanAux key dedup asc none 0 (slots.map refillSlot)).2 = some (c, idx)) :
    GoodSlotsLE key asc
      (nullIdx idx (scanAux key dedup asc none 0 (slots.map refillSlot)).1) := by
  obtain ⟨rc, hS₂idx, hS₁idx⟩ := mergeStep_loc hscan
  have hgood₁ := goodSlotsLE_refill hgood
  intro s hs
  rw [List.mem_iff_getElem?] at hs
  obtain ⟨j, hjs⟩ := hs
  by_cases hj : j = idx
  · subst hj
    rw [nullIdx_get_eq hS₂idx] at hjs
    cases hjs
    have hchain := hgood₁ _ (by
      rw [List.mem_iff_getElem?]
      exact ⟨j, hS₁idx⟩)
    rw [show slotContents ((some c, rc) : Slot τ) = c :: rc from rfl] at hchain
    exact hchain.tail
  · rw [nullIdx_get_ne idx _ j hj] at hjs
    obtain ⟨s₁, hs₁, hrest, hhead⟩ :=
      scanAux_slots_shape key dedup asc (slots.map refillSlot) none 0 j s hjs
    have hchain := hgood₁ _ (by
      rw [List.mem_iff_getElem?]
      exact ⟨j, hs₁⟩)
    rcases s with ⟨h₂, r₂⟩
    rcases s₁ with ⟨h₁, r₁⟩
    dsimp only at hrest hhead
    subst hrest
    rcases hhead with hh | hh
    · subst hh
      exact hchain
    · subst hh
      rcases h₁ with _ | x
      · exact hchain
      · rw [show slotContents ((some x, r₁) : Slot τ) = x :: r₁ from rfl] at hchain
        exact hchain.tail

/-- Nulling the head of the slot that holds `c` removes exactly that one copy
of `c` from the flattened contents. -/
theorem flatten_nullIdx (c : τ) : ∀ (idx : Nat) (slots : List (Slot τ)) (rc : List τ),
    slots[idx]? = some (some c, rc) →
    (slotsContents slots).flatten.Perm
      (c :: (slotsContents (nullIdx idx slots)).flatten)
  | 0, [], rc, h => by cases h
  | 0, s :: rest, rc, h => by
    rw [List.getElem?_cons_zero] at h
    cases h
    exact List.Perm.refl _
  | n + 1, [], rc, h => by cases h
  | n + 1, s :: rest, rc, h => by
    rw [List.getElem?_cons_succ] at h
    have ih := flatten_nullIdx c n rest rc h
    show (slotContents s ++ (slotsContents rest).flatten).Perm
      (c :: (slotContents s ++ (slotsContents (nullIdx n rest)).flatten))
    exact (ih.append_left (slotContents s)).trans List.perm_middle

/-- Correctness of the no-dedup k-way merge loop: with weakly sorted slots and
enough fuel the loop emits every remaining record exactly once, in weakly
sorted key order. -/
theorem mergeLoop_nodedup (key : τ → String) (asc : Bool) :
    ∀ (fuel : Nat) (slots : List (Slot τ)),
    GoodSlotsLE key asc slots → slotsMeasure slots < fuel →
    ((slotsContents slots).flatten).Perm (mergeLoop key false asc fuel slots)
    ∧ List.Chain' (fun a b => dirLE asc (key a) (key b))
        (mergeLoop key false asc fuel slots)
  | 0, slots => by
    intro _ h
    omega
  | fuel + 1, slots => by
    intro hgood hfuel
    rw [mergeLoop]
    cases hscan : (scanAux key false asc none 0 (slots.map refillSlot)).2 with
    | none =>
      have hpair : scanAux key false asc none 0 (slots.map refillSlot) =
          ((scanAux key false asc none 0 (slots.map refillSlot)).1, none) :=
        Prod.ext rfl hscan
      rw [hpair]
      dsimp only
      have hterm := mergeScan_terminal hscan
      have hnil : (slotsContents slots).flatten = [] := by
        rw [List.flatten_eq_nil_iff]
        intro l hl
        cases hlc : l with
        | nil => rfl
        | cons y ys =>
          exfalso
          unfold slotsContents at hl
          rw [List.mem_map] at hl
          obtain ⟨s, hs, hsl⟩ := hl
          refine hterm (key y) ⟨s, hs, y, ?_, rfl⟩
          rw [hsl, hlc]
          exact List.mem_cons_self ..
      rw [hnil]
      exact ⟨List.Perm.refl [], List.chain'_nil⟩
    | some p =>
      rcases p with ⟨c, idx⟩
      have hpair : scanAux key false asc none 0 (slots.map refillSlot) =
          ((scanAux key false asc none 0 (slots.map refillSlot)).1, some (c, idx)) :=
        Prod.ext rfl hscan
      rw [hpair]
      dsimp only
      have hgoodN := mergeStep_goodLE hgood hscan
      have hmeas := mergeStep_measure hscan
      obtain ⟨ih1, ih2⟩ := mergeLoop_nodedup key asc fuel
        (nullIdx idx (scanAux key false asc none 0 (slots.map refillSlot)).1)
        hgoodN (by omega)
      have hs1 : (scanAux key false asc none 0 (slots.map refillSlot)).1 =
          slots.map refillSlot := scanAux_nodedup key asc (slots.map refillSlot) none 0
      obtain ⟨rc, hS₂idx, hS₁idx⟩ := mergeStep_loc hscan
      have hceq : slotsContents
          ((scanAux key false asc none 0 (slots.map refillSlot)).1) =
          slotsContents slots := by
        rw [hs1, slotsContents_refill]
      constructor
      · have hfl := flatten_nullIdx c idx
          ((scanAux key false asc none 0 (slots.map refillSlot)).1) rc hS₂idx
        rw [hceq] at hfl
        exact hfl.trans (ih1.cons c)
      · rw [List.chain'_cons']
        refine ⟨?_, ih2⟩
        intro b hb
        have hbmem : b ∈ mergeLoop key false asc fuel
            (nullIdx idx (scanAux key false asc none 0 (slots.map refillSlot)).1) :=
          List.mem_of_mem_head? hb
        have hbfl : b ∈ (slotsContents (nullIdx idx
            (scanAux key false asc none 0 (slots.map refillSlot)).1)).flatten :=
          ih1.mem_iff.mpr hbmem
        rw [List.mem_flatten] at hbfl
        obtain ⟨l, hl, hbl⟩ := hbfl
        unfold slotsContents at hl
        rw [List.mem_map] at hl
        obtain ⟨s, hs, hsl⟩ := hl
        rw [List.mem_iff_getElem?] at hs
        obtain ⟨j, hjs⟩ := hs
        have hnlt := mergeStep_not_lt_le hgood hscan j s hjs b (by
          rw [hsl]
          exact hbl)
        exact dirLE_of_not_dirLT hnlt

/-- The no-dedup merge over plain weakly sorted runs. -/
theorem mergeRuns_nodedup (key : τ → String) (asc : Bool) (runs : List (List τ))
    (hgood : ∀ run ∈ runs,
      List.Chain' (fun a b => dirLE asc (key a) (key b)) run) :
    runs.flatten.Perm (mergeRuns key false asc runs)
    ∧ List.Chain' (fun a b => dirLE asc (key a) (key b))
        (mergeRuns key false asc runs) := by
  have hgood' : GoodSlotsLE key asc (runs.map (fun r => ((none : Option τ), r))) := by
    intro s hs
    rw [List.mem_map] at hs
    obtain ⟨r, hr, hrs⟩ := hs
    subst hrs
    exact hgood r hr
  have hmr : mergeRuns key false asc runs = mergeLoop key false asc
      (slotsMeasure (runs.map (fun r => ((none : Option τ), r))) + 1)
      (runs.map (fun r => ((none : Option τ), r))) := rfl
  rw [hmr]
  obtain ⟨h1, h2⟩ := mergeLoop_nodedup key asc
    (slotsMeasure (runs.map (fun r => ((none : Option τ), r))) + 1)
    (runs.map (fun r => ((none : Option τ), r))) hgood' (Nat.lt_succ_self _)
  rw [slotsContents_init] at h1
  exact ⟨h1, h2⟩

/-- C3.  `MergeSortedReaders` on already-sorted input readers returns a reader
whose record sequence is sorted by `GetSortKey` in the requested direction and
whose records are exactly the union of the inputs' records — nothing is
dropped on tied keys — and records no error. -/
theorem c3_merge_sorted_readers_totality (getSortKey : β → String) (asc : Bool)
    (runs : List (List β))
    (hsorted : ∀ run ∈ runs,
      List.Chain' (fun a b => dirLE asc (getSortKey a) (getSortKey b)) run) :
    (readerSeq (mergeSortedReadersReader getSortKey asc runs)).Perm runs.flatten
    ∧ List.Chain' (fun a b => dirLE asc (getSortKey a) (getSortKey b))
        (readerSeq (mergeSortedReadersReader getSortKey asc runs))
    ∧ getError (mergeSortedReadersReader getSortKey asc runs) = none := by
  obtain ⟨h1, h2⟩ := mergeRuns_nodedup getSortKey asc runs hsorted
  unfold mergeSortedReadersReader
  by_cases hlen : runs.length = 0
  · rw [if_pos hlen]
    have hnil : runs = [] := List.length_eq_zero.mp hlen
    subst hnil
    exact ⟨List.Perm.refl _, List.chain'_nil, rfl⟩
  · rw [if_neg hlen]
    have hseq : readerSeq (newContentReader
        (fun _ => mergeSortedReadersList getSortKey asc runs)
        tempFilePath DefaultKey) = mergeSortedReadersList getSortKey asc runs := by
      simp [readerSeq, newContentReader, newMultiSourceContentReader, tempFilePath]
    rw [hseq]
    exact ⟨h1.symm, h2, rfl⟩

/-- Witness for C3 at two single-record readers with tied keys: both records
survive. -/
theorem c3_merge_sorted_readers_totality_witness :
    (∀ run ∈ [[("a", 1)], [("a", 2)]],
      List.Chain' (fun x y : String × Nat => dirLE true x.1 y.1) run)
    ∧ ((readerSeq (mergeSortedReadersReader Prod.fst true
          [[("a", 1)], [("a", 2)]])).Perm
            ([[("a", 1)], [("a", 2)]] : List (List (String × Nat))).flatten
      ∧ List.Chain' (fun x y : String × Nat => dirLE true x.1 y.1)
          (readerSeq (mergeSortedReadersReader Prod.fst true
            [[("a", 1)], [("a", 2)]]))
      ∧ getError (mergeSortedReadersReader Prod.fst true
          [[("a", 1)], [("a", 2)]]) = none) :=
  ⟨by simp, c3_merge_sorted_readers_totality Prod.fst true
    [[("a", 1)], [("a", 2)]] (by simp)⟩

/-- C10.  Sorting an empty reader produces no runs and returns an empty reader
with no recorded error; `mergeSortedReadersByCalculatedKey` and
`MergeSortedReaders` on a zero-length reader list also return an empty reader
with no error. -/
theorem c10_empty_reader_sort (B : Nat) (keyFn : α → String) (asc : Bool)
    (cr : State α) (hemp : cr.empty = true) :
    splitChunks B keyFn asc (collect (cr.records.length + 1) cr).1 = []
    ∧ isEmpty (sortContentReaderByCalculatedKeyReader B keyFn asc cr) = true
    ∧ getError (sortContentReaderByCalculatedKeyReader B keyFn asc cr) = none
    ∧ isEmpty (mergeSortedByCalculatedKeyReader asc
        ([] : List (List (SortRecord α)))) = true
    ∧ getError (mergeSortedByCalculatedKeyReader asc
        ([] : List (List (SortRecord α)))) = none
    ∧ isEmpty (mergeSortedReadersReader keyFn asc ([] : List (List α))) = true
    ∧ getError (mergeSortedReadersReader keyFn asc ([] : List (List α))) = none := by
  have hc := collect_empty cr.records.length hemp
  have hchunks : splitChunks B keyFn asc (collect (cr.records.length + 1) cr).1 = [] := by
    rw [hc]
    rfl
  refine ⟨hchunks, ?_, ?_, rfl, rfl, rfl, rfl⟩
  · unfold sortContentReaderByCalculatedKeyReader
    rw [hchunks]
    rfl
  · unfold sortContentReaderByCalculatedKeyReader
    rw [hchunks]
    rfl

/-- Witness for C10 at a concrete explicitly-empty reader. -/
theorem c10_empty_reader_sort_witness :
    (newEmptyContentReader (fun _ => ([] : List Nat)) "results").empty = true
    ∧ (splitChunks 2 (fun _ : Nat => "k") true
        (collect ((newEmptyContentReader (fun _ => ([] : List Nat)) "results").records.length + 1)
          (newEmptyContentReader (fun _ => ([] : List Nat)) "results")).1 = []
      ∧ isEmpty (sortContentReaderByCalculatedKeyReader 2 (fun _ : Nat => "k") true
          (newEmptyContentReader (fun _ => ([] : List Nat)) "results")) = true
      ∧ getError (sortContentReaderByCalculatedKeyReader 2 (fun _ : Nat => "k") true
          (newEmptyContentReader (fun _ => ([] : List Nat)) "results")) = none
      ∧ isEmpty (mergeSortedByCalculatedKeyReader true
          ([] : List (List (SortRecord Nat)))) = true
      ∧ getError (mergeSortedByCalculatedKeyReader true
          ([] : List (List (SortRecord Nat)))) = none
      ∧ isEmpty (mergeSortedReadersReader (fun _ : Nat => "k") true
          ([] : List (List Nat))) = true
      ∧ getError (mergeSortedReadersReader (fun _ : Nat => "k") true
          ([] : List (List Nat))) = none) :=
  ⟨by decide, c10_empty_reader_sort 2 (fun _ => "k") true
    (newEmptyContentReader (fun _ => ([] : List Nat)) "results") (by decide)⟩

end ContentReader
